import Mathlib

/-!
# Verification of the zerobrew core against its specification

This file gives a shallow embedding, in Lean 4, of the parts of the
zerobrew package installer that its specification talks about, and proves
(or refutes) the specified properties.

Pure Rust functions are translated into Lean functions over `List`-backed
models of the `BTreeMap`/`BTreeSet` containers (an association list sorted
by key models a `BTreeMap`; a sorted duplicate-free list models a
`BTreeSet`; iteration order of either container is its list order).
Stateful filesystem code is embedded as explicit state passing over a
small record of the relevant on-disk facts, with the outcomes of
non-deterministic effects (extraction, rename, the network) supplied as
explicit oracle parameters.  Fallible Rust functions returning
`Result<T, Error>` become Lean functions returning `Except Error T`.

Sources embedded here:
 * `zb_core/src/errors.rs`           — the `Error` enum
 * `zb_core/src/formula/types.rs`    — `Formula`, `effective_version`, `is_keg_only`
 * `zb_core/src/bottle.rs`           — `select_bottle` (all three `cfg` variants)
 * `zb_core/src/resolve.rs`          — `resolve_closure`, `compute_closure`, `build_graph`
 * `zb_io/src/extraction/extract.rs` — `validate_path`, `normalize_path`
 * `zb_io/src/storage/store.rs`      — `Store::ensure_entry`
 * `zb_io/src/installer/install.rs`  — the bottle-item loop of `execute_with_progress`
 * the blob cache (`storage/blob.rs`), which is not present in the source
   tree, is modelled from the spec where indicated.
-/

namespace ZeroBrew

/-! ## Error type (zb_core/src/errors.rs) -/

/-- `ConflictedLink` from `errors.rs`; the `PathBuf` is rendered as a string. -/
structure ConflictedLink where
  path : String
  ownedBy : Option String
deriving DecidableEq, Repr

/-- The closed error enum from `zb_core/src/errors.rs`. -/
inductive Error where
  | unsupportedBottle (name : String)
  | checksumMismatch (expected actual : String)
  | linkConflict (conflicts : List ConflictedLink)
  | storeCorruption (message : String)
  | networkFailure (message : String)
  | missingFormula (name : String)
  | unsupportedTap (name : String)
  | dependencyCycle (cycle : List String)
  | notInstalled (name : String)
  | fileError (message : String)
  | invalidArgument (message : String)
  | executionError (message : String)
deriving DecidableEq, Repr

/-! ## Executable string primitives

Lean core's `String.contains`/`String.lt` are defined through byte
iterators that the kernel does not reduce, so the Rust string operations
are modelled over the underlying character lists (UTF-8 preserves
code-point order, so character-wise comparison agrees with Rust's
byte-wise `str` ordering). -/

/-- Rust `str::contains(char)`, over the character list. -/
def strHasChar (s : String) (c : Char) : Bool :=
  s.data.any (· = c)

/-- Does `pat` occur at the head of `l`? (helper for substring search). -/
def subAt : List Char → List Char → Bool
  | [], _ => true
  | _ :: _, [] => false
  | p :: ps, c :: cs => p = c && subAt ps cs

/-- Does `pat` occur anywhere in `l`? (helper for substring search). -/
def hasSub (pat : List Char) : List Char → Bool
  | [] => pat.isEmpty
  | c :: cs => subAt pat (c :: cs) || hasSub pat cs

/-- Rust `str::contains(&str)`: substring containment. -/
def strHasSub (s pat : String) : Bool :=
  hasSub pat.data s.data

/-- Lexicographic strict order on character lists. -/
def clLt : List Char → List Char → Bool
  | [], [] => false
  | [], _ :: _ => true
  | _ :: _, [] => false
  | a :: as, b :: bs => if a = b then clLt as bs else decide (a.toNat < b.toNat)

/-- Rust `String` ordering (lexicographic; agrees with byte order on UTF-8). -/
def sLt (a b : String) : Bool := clLt a.data b.data

/-- Sorted insertion (ascending by `sLt`); helper for `sortStrings`. -/
def sortInsert (x : String) : List String → List String
  | [] => [x]
  | y :: ys => if sLt x y then x :: y :: ys else y :: sortInsert x ys

/-- Rust `Vec::sort` on strings.  Since the order is total and
antisymmetric, the ascending sorted permutation is unique, so any
correct sort gives the same list; insertion sort is used because it
reduces inside the kernel. -/
def sortStrings (l : List String) : List String := l.foldr sortInsert []

/-! ## Formula model (zb_core/src/formula/types.rs)

Only the fields read by the functions under verification are carried;
the remaining fields of the Rust struct (`build_dependencies`, `urls`,
`ruby_source_path`, `ruby_source_checksum`, `uses_from_macos`,
`requirements`, `variations`) are not consulted by any embedded function. -/

/-- `KegOnly` from `formula/types.rs`. -/
inductive KegOnly where
  | no
  | yes
  | reason (s : String)
deriving DecidableEq, Repr

/-- `BottleFile` from `formula/types.rs`. -/
structure BottleFile where
  url : String
  sha256 : String
deriving DecidableEq, Repr

/-- `Formula` from `formula/types.rs`.  `stable` is `versions.stable`;
`bottleFiles` is `bottle.stable.files`, an association list in `BTreeMap`
iteration order (sorted by tag); `rebuild` is `bottle.stable.rebuild`. -/
structure Formula where
  name : String
  stable : String
  dependencies : List String
  bottleFiles : List (String × BottleFile)
  rebuild : Nat
  revision : Nat
  kegOnly : KegOnly
deriving DecidableEq, Repr

/-- `Formula::effective_version` (formula/types.rs lines 107–113):
`format!("{}_{}", stable, revision)` when `revision > 0`, else `stable`. -/
def Formula.effective_version (f : Formula) : String :=
  if f.revision > 0 then f.stable ++ "_" ++ toString f.revision else f.stable

/-- `Formula::is_keg_only` (formula/types.rs lines 115–117):
`self.name.contains('@') || !matches!(self.keg_only, KegOnly::No)`. -/
def Formula.is_keg_only (f : Formula) : Bool :=
  strHasChar f.name '@' ||
    (match f.kegOnly with
     | .no => false
     | _ => true)

/-- The linking guard from `Installer::execute_with_progress`
(install.rs line 404): `let should_link = link && !item.formula.is_keg_only();`. -/
def shouldLink (link : Bool) (f : Formula) : Bool :=
  link && !f.is_keg_only

/-! ## Bottle selection (zb_core/src/bottle.rs)

`select_bottle` is compiled under three mutually exclusive `cfg`
attributes; each compile-time variant is embedded as its own function.
`formula.bottle.stable.files` is a `BTreeMap`, so `bottleFiles` is
iterated in ascending tag order; `files.get(tag)` is `List.lookup`. -/

/-- `SelectedBottle` from bottle.rs. -/
structure SelectedBottle where
  tag : String
  url : String
  sha256 : String
deriving DecidableEq, Repr

/-- The `for preferred_tag in tags { if let Some(file) = files.get(tag) ... }`
loops of `select_bottle`: first tag of `tags` present in `files`. -/
def firstPresentTag (files : List (String × BottleFile)) :
    List String → Option (String × BottleFile)
  | [] => none
  | t :: ts =>
    match files.lookup t with
    | some f => some (t, f)
    | none => firstPresentTag files ts

/-- The `cfg(target_os = "linux")` instantiation of `select_bottle`
(bottle.rs lines 10–112): preference list `["x86_64_linux"]`, then the
`"all"` tag, then the first bottle (in map order) whose tag contains
`"linux"`; otherwise `UnsupportedBottle`. -/
def select_bottle_linux (f : Formula) : Except Error SelectedBottle :=
  match firstPresentTag f.bottleFiles ["x86_64_linux"] with
  | some (t, file) => .ok ⟨t, file.url, file.sha256⟩
  | none =>
    match f.bottleFiles.lookup "all" with
    | some file => .ok ⟨"all", file.url, file.sha256⟩
    | none =>
      match f.bottleFiles.find? (fun tf => strHasSub tf.1 "linux") with
      | some (t, file) => .ok ⟨t, file.url, file.sha256⟩
      | none => .error (.unsupportedBottle f.name)

/-- The `cfg(target_os = "macos", target_arch = "aarch64")` instantiation
of `select_bottle`: the arm64 preference list, then `"all"`, then the
first bottle whose tag starts with `"arm64_"` and does not contain
`"linux"`. -/
def select_bottle_macos_arm (f : Formula) : Except Error SelectedBottle :=
  match firstPresentTag f.bottleFiles
      ["arm64_tahoe", "arm64_sequoia", "arm64_sonoma", "arm64_ventura"] with
  | some (t, file) => .ok ⟨t, file.url, file.sha256⟩
  | none =>
    match f.bottleFiles.lookup "all" with
    | some file => .ok ⟨"all", file.url, file.sha256⟩
    | none =>
      match f.bottleFiles.find?
          (fun tf => "arm64_".data.isPrefixOf tf.1.data && !strHasSub tf.1 "linux") with
      | some (t, file) => .ok ⟨t, file.url, file.sha256⟩
      | none => .error (.unsupportedBottle f.name)

/-- The `cfg(target_os = "macos", target_arch = "x86_64")` instantiation
of `select_bottle`: the bare-OS-name preference list, then `"all"`, then
the first bottle whose tag does not start with `"arm64_"`, does not
contain `"linux"` and is not `"all"`. -/
def select_bottle_macos_intel (f : Formula) : Except Error SelectedBottle :=
  match firstPresentTag f.bottleFiles ["tahoe", "sequoia", "sonoma", "ventura"] with
  | some (t, file) => .ok ⟨t, file.url, file.sha256⟩
  | none =>
    match f.bottleFiles.lookup "all" with
    | some file => .ok ⟨"all", file.url, file.sha256⟩
    | none =>
      match f.bottleFiles.find?
          (fun tf => !"arm64_".data.isPrefixOf tf.1.data && !strHasSub tf.1 "linux"
            && tf.1 ≠ "all") with
      | some (t, file) => .ok ⟨t, file.url, file.sha256⟩
      | none => .error (.unsupportedBottle f.name)

/-- Written from the specification's words, for comparison with the
source functions: "return the first present tag from a fixed ordered
list, then try the platform-independent tag `all`, then any remaining
bottle whose tag is consistent with the host; fails with
*UnsupportedBottle* when no candidate matches."  The "first present tag"
is the head of the preference list restricted to present tags; the
fallback is the first consistent bottle in map order. -/
def specSelect (prefTags : List String) (consistent : String → Bool) (f : Formula) :
    Except Error SelectedBottle :=
  match (prefTags.filterMap
      (fun t => (f.bottleFiles.lookup t).map (fun file => (t, file)))).head? with
  | some (t, file) => .ok ⟨t, file.url, file.sha256⟩
  | none =>
    match f.bottleFiles.lookup "all" with
    | some file => .ok ⟨"all", file.url, file.sha256⟩
    | none =>
      match (f.bottleFiles.filter (fun tf => consistent tf.1)).head? with
      | some (t, file) => .ok ⟨t, file.url, file.sha256⟩
      | none => .error (.unsupportedBottle f.name)

/-- The host-consistency predicates of the three fallback loops of
`select_bottle` (bottle.rs lines 73–107). -/
def linuxConsistent (t : String) : Bool := strHasSub t "linux"

/-- Fallback predicate of the macOS-arm64 variant. -/
def armConsistent (t : String) : Bool :=
  "arm64_".data.isPrefixOf t.data && !strHasSub t "linux"

/-- Fallback predicate of the macOS-intel variant. -/
def intelConsistent (t : String) : Bool :=
  !"arm64_".data.isPrefixOf t.data && !strHasSub t "linux" && t ≠ "all"

/-! ## Safe extraction paths (zb_io/src/extraction/extract.rs)

A unix path is modelled as its `std::path::Component` list (Rust's
`Path::components`): `RootDir`, `CurDir`, `ParentDir` or a `Normal`
segment.  The Windows-only `Prefix` component cannot occur on unix and is
omitted. -/

/-- A `std::path::Component` on unix. -/
inductive PComp where
  | rootDir
  | curDir
  | parentDir
  | normal (s : String)
deriving DecidableEq, Repr

/-- `Path::is_absolute` on unix (`has_root`): real component lists start
with `RootDir` exactly when the path is absolute. -/
def pathIsAbsolute (p : List PComp) : Bool :=
  match p with
  | .rootDir :: _ => true
  | _ => false

/-- `Path::join`: an absolute right operand replaces the left one,
otherwise the components concatenate. -/
def pathJoin (dest p : List PComp) : List PComp :=
  if pathIsAbsolute p then p else dest ++ p

/-- A rough rendering of `Path::display`, used only inside error
messages (no theorem depends on the message text). -/
def pathDisplay (p : List PComp) : String :=
  match p with
  | [] => ""
  | .rootDir :: rest => "/" ++ pathDisplay rest
  | .curDir :: rest => "./" ++ pathDisplay rest
  | .parentDir :: rest => "../" ++ pathDisplay rest
  | .normal s :: rest => s ++ (if rest.isEmpty then "" else "/") ++ pathDisplay rest

/-- One step of the component loop of `normalize_path`
(extract.rs lines 248–282).  The accumulator list is kept reversed
(`components.last()` is the head; `push` is cons).  The second state
component is the `is_absolute` flag. -/
def normStep (st : List PComp × Bool) (c : PComp) : List PComp × Bool :=
  match c with
  | .rootDir => (.rootDir :: st.1, true)
  | .curDir => st
  | .parentDir =>
    match st.1 with
    | .normal _ :: rest => (rest, st.2)
    | .rootDir :: _ => st
    | _ :: _ => (.parentDir :: st.1, st.2)
    | [] => if !st.2 then (.parentDir :: st.1, st.2) else st
  | .normal s => (.normal s :: st.1, st.2)

/-- `normalize_path` (extract.rs lines 242–286): purely lexical
resolution of `.` and `..`. -/
def normalize_path (p : List PComp) : List PComp :=
  (p.foldl normStep ([], false)).1.reverse

/-- `validate_path` (extract.rs lines 193–231): reject absolute paths,
reject `..` components, then check that the lexically normalized join
stays under the normalized destination. -/
def validate_path (p dest : List PComp) : Except Error Unit :=
  if pathIsAbsolute p then
    .error (.storeCorruption ("absolute path in archive: " ++ pathDisplay p))
  else if p.any (· = .parentDir) then
    .error (.storeCorruption ("path traversal in archive: " ++ pathDisplay p))
  else
    let normalized := normalize_path (pathJoin dest p)
    let normalizedDest := normalize_path dest
    if normalizedDest.isPrefixOf normalized then
      .ok ()
    else
      .error (.storeCorruption
        ("path escapes destination directory: " ++ pathDisplay p ++
          " (normalized: " ++ pathDisplay normalized ++ ") not within " ++
          pathDisplay normalizedDest))

/-! ## Content-addressed store (zb_io/src/storage/store.rs)

`Store::ensure_entry` mutates the filesystem under an exclusive advisory
lock; the claim under verification is about *serial* calls, so the
filesystem is modelled as explicit state (which store keys have a
complete `store/<key>` directory, and which temp directories exist) and
the lock acquisition is a no-op.  The outcome of each fallible effect
(lock-file creation, temp-dir creation, `extract_archive`, the final
rename) is supplied by an oracle record. -/

/-- The store-relevant filesystem state. -/
structure StoreState where
  entries : List String
  tmps : List String
deriving DecidableEq, Repr

/-- Oracle for the fallible effects inside `ensure_entry`. -/
structure StoreEnv where
  lockFails : Bool
  createTmpFails : Bool
  extractErr : Option Error
  renameFails : Bool
deriving DecidableEq, Repr

/-- Result of one `ensure_entry` call: the returned value, the state
after the call, and whether `extract_archive` was invoked. -/
structure EnsureOutcome where
  result : Except Error String
  state : StoreState
  extracted : Bool
deriving Repr

/-- `store/<key>`, the path `entry_path` returns (store.rs line 29). -/
def entryPath (key : String) : String := "store/" ++ key

/-- `.{store_key}.tmp.{pid}` (store.rs line 66). -/
def tmpName (key : String) (pid : Nat) : String :=
  "." ++ key ++ ".tmp." ++ toString pid

/-- `Store::ensure_entry` (store.rs lines 37–96). -/
def ensure_entry (st : StoreState) (key : String) (pid : Nat) (env : StoreEnv) :
    EnsureOutcome :=
  -- Fast path: already exists
  if key ∈ st.entries then ⟨.ok (entryPath key), st, false⟩
  else if env.lockFails then
    ⟨.error (.storeCorruption "failed to create lock file"), st, false⟩
  -- Double-check after acquiring lock: in this serial model nothing ran
  -- in between, so the re-check re-reads the same state.
  else if key ∈ st.entries then ⟨.ok (entryPath key), st, false⟩
  else
    -- purge any stale temp directory, then create it afresh
    let st1 : StoreState := { st with tmps := st.tmps.filter (· ≠ tmpName key pid) }
    if env.createTmpFails then
      ⟨.error (.storeCorruption "failed to create temp directory"), st1, false⟩
    else
      let st2 : StoreState := { st1 with tmps := tmpName key pid :: st1.tmps }
      match env.extractErr with
      | some e =>
        ⟨.error e, { st2 with tmps := st2.tmps.filter (· ≠ tmpName key pid) }, true⟩
      | none =>
        if env.renameFails then
          ⟨.error (.storeCorruption "failed to rename store entry"),
            { st2 with tmps := st2.tmps.filter (· ≠ tmpName key pid) }, true⟩
        else
          ⟨.ok (entryPath key),
            { entries := key :: st2.entries,
              tmps := st2.tmps.filter (· ≠ tmpName key pid) }, true⟩

/-! ## Installer orchestration (zb_io/src/installer/install.rs)

The bottle-item loop of `Installer::execute_with_progress`
(lines 282–506) is embedded with the outcome of every fallible effect of
one item (its download, `extract_with_retry`, `cellar.materialize`, the
metadata transaction, `linker.link_keg`) supplied as oracle fields, and
the filesystem/metadata facts the claims mention (which kegs exist,
which installs are committed, which overlay links exist) as explicit
state.  Items are listed in download-completion (arrival) order, exactly
as `rx.recv()` yields them. -/

/-- Oracle describing how the effects of one bottle item turn out.
`partialLinks` are the symlinks a failing `link_keg` had created before
it returned its error (`link_keg` creates links one at a time and stops
at the first failure). -/
structure BottleItem where
  installName : String
  formula : Formula
  download : Option Error
  extract : Option Error
  materialize : Option Error
  txBegin : Option Error
  txRecord : Option Error
  txCommit : Option Error
  linkResult : Except Error (List String)
  partialLinks : List String
deriving Repr

/-- The installer-visible state: materialized kegs (by formula name),
committed metadata rows (by install name), and overlay links
`(keg name, link path)`. -/
structure InstState where
  kegs : List String
  committed : List String
  links : List (String × String)
deriving DecidableEq, Repr

/-- `Installer::cleanup_materialized`: remove the keg directory that was
just materialized (called on the three transaction-failure paths). -/
def cleanupMaterialized (name : String) (st : InstState) : InstState :=
  { st with kegs := st.kegs.filter (· ≠ name) }

/-- `Linker::unlink_keg` as observed by this model: every overlay link
pointing into the keg is removed. -/
def unlinkKeg (name : String) (st : InstState) : InstState :=
  { st with links := st.links.filter (·.1 ≠ name) }

/-- One iteration of the `while let Some(result) = rx.recv()` loop
(install.rs lines 310–477): returns the new state, the error this item
recorded into the loop's `error` slot (if any), and the amount added to
`installed`. -/
def execBottleItem (link : Bool) (st : InstState) (it : BottleItem) :
    InstState × Option Error × Nat :=
  match it.download with
  | some e => (st, some e, 0)                      -- Err(e) arm, line 473
  | none =>
  match it.extract with
  | some e => (st, some e, 0)                      -- extract_with_retry failed
  | none =>
  match it.materialize with
  | some e => (st, some e, 0)                      -- cellar.materialize failed
  | none =>
  let st1 : InstState := { st with kegs := it.formula.name :: st.kegs }
  match it.txBegin with
  | some e => (cleanupMaterialized it.formula.name st1, some e, 0)
  | none =>
  match it.txRecord with
  | some e => (cleanupMaterialized it.formula.name st1, some e, 0)
  | none =>
  match it.txCommit with
  | some e => (cleanupMaterialized it.formula.name st1, some e, 0)
  | none =>
  let st2 : InstState := { st1 with committed := it.installName :: st1.committed }
  if shouldLink link it.formula then
    match it.linkResult with
    | .ok files =>
      -- link succeeded; linked files are recorded in a follow-up
      -- transaction whose failure is swallowed (lines 444–465)
      ({ st2 with links := st2.links ++ files.map (fun p => (it.formula.name, p)) },
        none, 1)
    | .error e =>
      -- line 417–425: unlink whatever was created, record the error,
      -- and STILL count the item as installed; the keg stays.
      (unlinkKeg it.formula.name
          { st2 with links := st2.links ++ it.partialLinks.map (fun p => (it.formula.name, p)) },
        some e, 1)
  else
    (st2, none, 1)

/-- The bottle loop: fold `execBottleItem` over the items in arrival
order, overwriting the single `error` slot whenever an item records an
error (`error = Some(e)`). -/
def execBottleItems (link : Bool) :
    InstState → Option Error → Nat → List BottleItem → InstState × Option Error × Nat
  | st, err, n, [] => (st, err, n)
  | st, err, n, it :: rest =>
    execBottleItems link (execBottleItem link st it).1
      (match (execBottleItem link st it).2.1 with
       | some x => some x
       | none => err)
      (n + (execBottleItem link st it).2.2) rest

/-- The source-item loop (install.rs lines 480–499); the outcome of each
`install_from_source` call is abstracted as an optional error. -/
def execSourceItems : Option Error → Nat → List (Option Error) → Option Error × Nat
  | err, n, [] => (err, n)
  | err, n, outcome :: rest =>
    match outcome with
    | some e => execSourceItems (some e) n rest
    | none => execSourceItems err (n + 1) rest

/-- `Installer::execute_with_progress` (install.rs lines 261–506):
process all bottle items, then all source items, and finally return the
error left in the `error` slot if any, else the installed count. -/
def execute_with_progress (link : Bool) (st : InstState)
    (bottles : List BottleItem) (sources : List (Option Error)) :
    Except Error Nat × InstState :=
  let b := execBottleItems link st none 0 bottles
  let s := execSourceItems b.2.1 b.2.2 sources
  match s.1 with
  | some e => (.error e, b.1)
  | none => (.ok s.2, b.1)

/-- The error one bottle item records, read off the oracle alone (the
branch taken by `execBottleItem` never depends on the state). -/
def itemErr (link : Bool) (it : BottleItem) : Option Error :=
  match it.download with
  | some e => some e
  | none =>
  match it.extract with
  | some e => some e
  | none =>
  match it.materialize with
  | some e => some e
  | none =>
  match it.txBegin with
  | some e => some e
  | none =>
  match it.txRecord with
  | some e => some e
  | none =>
  match it.txCommit with
  | some e => some e
  | none =>
  if shouldLink link it.formula then
    match it.linkResult with
    | .ok _ => none
    | .error e => some e
  else none

/-- Did this item reach and survive its metadata commit? -/
def itemCommits (it : BottleItem) : Bool :=
  it.download.isNone && it.extract.isNone && it.materialize.isNone &&
    it.txBegin.isNone && it.txRecord.isNone && it.txCommit.isNone

/-- The value left in a single overwritten `error` slot after a run of
recordings: the last recorded error, else the initial contents. -/
def lastRecorded (init : Option Error) (errs : List Error) : Option Error :=
  errs.foldl (fun _ e => some e) init

/-- Every error recorded during one `execute_with_progress` run, in
recording order. -/
def recordedErrors (link : Bool) (bottles : List BottleItem)
    (sources : List (Option Error)) : List Error :=
  bottles.filterMap (itemErr link) ++ sources.filterMap id

/-! ## Blob cache (modelled from the spec)

Modelled from the spec: the blob cache implementation
(`zb_io/src/storage/blob.rs`, re-exported as `storage::BlobCache` and
used by the download engine) is not present under the source tree; §4.4
of the spec describes it: "`start_write` returns a hashing writer that
computes sha256 incrementally; `commit` verifies the hash equals the
expected key, flushes, and renames the part into place.  Mismatch
deletes the part and fails with *ChecksumMismatch*."  Blobs and partials
are named by their expected sha; sha256 itself is an uninterpreted
`hash` parameter. -/

/-- Blob-cache on-disk state: committed blobs in `blobs/` and in-flight
partials in `tmp/`, each named by the expected sha. -/
structure BlobState where
  blobs : List String
  parts : List String
deriving DecidableEq, Repr

/-- Modelled from the spec: the hashing writer returned by `start_write`. -/
structure BlobWriter where
  sha : String
  bytes : List Nat
deriving DecidableEq, Repr

/-- Modelled from the spec: `start_write(sha)` creates the `.part` file
and returns a fresh hashing writer. -/
def start_write (st : BlobState) (sha : String) : BlobState × BlobWriter :=
  ({ st with parts := sha :: st.parts }, ⟨sha, []⟩)

/-- Modelled from the spec: `write` feeds bytes to the hashing writer. -/
def writeBytes (w : BlobWriter) (chunk : List Nat) : BlobWriter :=
  { w with bytes := w.bytes ++ chunk }

/-- Modelled from the spec: `commit` verifies the incremental hash
against the expected key; on match it renames the part into `blobs/`,
on mismatch it deletes the part and fails with `ChecksumMismatch`. -/
def commitWriter (hash : List Nat → String) (st : BlobState) (w : BlobWriter) :
    Except Error String × BlobState :=
  let actual := hash w.bytes
  if actual = w.sha then
    (.ok ("blobs/" ++ w.sha),
      { blobs := w.sha :: st.blobs, parts := st.parts.filter (· ≠ w.sha) })
  else
    (.error (.checksumMismatch w.sha actual),
      { st with parts := st.parts.filter (· ≠ w.sha) })

/-- The full `start_write(sha) → write(bytes) → commit()` sequence of
spec §8 property 4. -/
def downloadWrite (hash : List Nat → String) (st : BlobState) (sha : String)
    (bytes : List Nat) : Except Error String × BlobState :=
  let (st1, w) := start_write st sha
  commitWriter hash st1 (writeBytes w bytes)

/-! ## Dependency resolution (zb_core/src/resolve.rs)

`BTreeMap<String, Formula>` is modelled as an association list in
ascending key order with `List.lookup` for `get`; `BTreeSet<String>` as
an ascending duplicate-free list with sorted insertion.  The Rust `Vec`
used as the DFS stack is popped and pushed at its end; the model keeps
the top of the stack at the list head, so the initial stack is
`roots.reverse` and pushing a run of dependencies reverses it onto the
head. -/

/-- A `BTreeMap<String, Formula>`. -/
abbrev FormulaMap := List (String × Formula)

/-- `BTreeSet<String>::insert`, keeping the list sorted ascending and
duplicate-free. -/
def setInsert (x : String) : List String → List String
  | [] => [x]
  | y :: ys =>
    if sLt x y then x :: y :: ys
    else if x = y then y :: ys
    else y :: setInsert x ys

/-- Membership in `setInsert` (needed for the termination of `closureAux`
and throughout the resolver proofs). -/
theorem mem_setInsert (x a : String) (l : List String) :
    a ∈ setInsert x l ↔ a = x ∨ a ∈ l := by
  induction l with
  | nil => simp [setInsert]
  | cons y ys ih =>
    simp only [setInsert]
    split_ifs with h1 h2
    · simp [List.mem_cons]
    · subst h2
      simp [List.mem_cons]
    · simp only [List.mem_cons, ih]
      tauto

/-- A key with a `lookup` hit is among the map's keys (termination helper
for `closureAux`). -/
theorem mem_keys_of_lookup {β : Type} {m : List (String × β)} {x : String} {v : β}
    (h : m.lookup x = some v) : x ∈ m.map Prod.fst := by
  induction m with
  | nil => simp [List.lookup] at h
  | cons p rest ih =>
    obtain ⟨k, b⟩ := p
    cases hbeq : (x == k) with
    | false =>
      simp only [List.lookup, hbeq] at h
      simp only [List.map, List.mem_cons]
      exact Or.inr (ih h)
    | true =>
      have hx : x = k := eq_of_beq hbeq
      simp [hx]

/-- Termination of the DFS: the part of the universe (stack plus map
keys) not yet absorbed into the closure cannot grow when an
already-known name is popped. -/
theorem closure_measure_le (m : FormulaMap) (closure : List String)
    (name : String) (rest : List String) :
    (((rest.toFinset ∪ (m.map Prod.fst).toFinset) \ closure.toFinset).card)
      ≤ ((((name :: rest).toFinset ∪ (m.map Prod.fst).toFinset) \ closure.toFinset).card) := by
  apply Finset.card_le_card
  intro x hx
  simp only [Finset.mem_sdiff, Finset.mem_union, List.mem_toFinset, List.mem_cons] at hx ⊢
  tauto

/-- Termination of the DFS: absorbing a fresh name into the closure
strictly shrinks the unabsorbed part, since everything newly pushed is a
key of the map. -/
theorem closure_measure_lt (m : FormulaMap) (closure : List String) (name : String)
    (rest kept : List String) (hname : name ∉ closure)
    (hkept : ∀ d ∈ kept, (m.lookup d).isSome = true) :
    ((((kept.reverse ++ rest).toFinset ∪ (m.map Prod.fst).toFinset)
        \ (setInsert name closure).toFinset).card)
      < ((((name :: rest).toFinset ∪ (m.map Prod.fst).toFinset) \ closure.toFinset).card) := by
  apply Finset.card_lt_card
  constructor
  · intro x hx
    simp only [Finset.mem_sdiff, Finset.mem_union, List.mem_toFinset, List.mem_append,
      List.mem_cons, List.mem_reverse, mem_setInsert] at hx ⊢
    obtain ⟨hin, hout⟩ := hx
    refine ⟨?_, fun hc => hout (Or.inr hc)⟩
    rcases hin with h | h
    · rcases h with h | h
      · obtain ⟨v, hv⟩ := Option.isSome_iff_exists.mp (hkept x h)
        exact Or.inr (mem_keys_of_lookup hv)
      · exact Or.inl (Or.inr h)
    · exact Or.inr h
  · intro hsub
    have hmem : name ∈ ((name :: rest).toFinset ∪ (m.map Prod.fst).toFinset)
        \ closure.toFinset := by
      rw [Finset.mem_sdiff]
      refine ⟨?_, by simpa using hname⟩
      simp
    have h2 := hsub hmem
    rw [Finset.mem_sdiff] at h2
    exact absurd ((mem_setInsert name name closure).mpr (Or.inl rfl))
      (by simpa using h2.2)

/-- The `while let Some(name) = stack.pop()` loop of `compute_closure`
(resolve.rs lines 59–80).  The stack's top is the list head. -/
def closureAux (m : FormulaMap) (closure stack : List String) :
    Except Error (List String) :=
  match stack with
  | [] => .ok closure
  | name :: rest =>
    if name ∈ closure then closureAux m closure rest
    else
      let closure' := setInsert name closure
      match m.lookup name with
      | none => .error (.missingFormula name)
      | some f =>
        -- Skip dependencies that aren't in the formulas map; push the
        -- rest (those not already in the closure) in ascending order.
        let kept := (sortStrings f.dependencies).filter
          (fun d => (m.lookup d).isSome && !closure'.contains d)
        closureAux m (setInsert name closure) (kept.reverse ++ rest)
termination_by
  (((stack.toFinset ∪ (m.map Prod.fst).toFinset) \ closure.toFinset).card,
    stack.length)
decreasing_by
  · rcases lt_or_eq_of_le (closure_measure_le m closure _ _) with hlt | heq
    · exact Prod.Lex.left _ _ hlt
    · rw [heq]
      exact Prod.Lex.right _ (Nat.lt_succ_self _)
  · exact Prod.Lex.left _ _ (closure_measure_lt m closure _ _ _ (by assumption)
      (fun d hd => by
        have hf := List.of_mem_filter hd
        exact (Bool.and_eq_true _ _ |>.mp hf).1))

/-- `compute_closure` (resolve.rs lines 52–83).  `stack = roots.to_vec()`
is popped from its end, so the head-of-list stack starts as
`roots.reverse`. -/
def compute_closure (roots : List String) (m : FormulaMap) :
    Except Error (List String) :=
  closureAux m [] roots.reverse

/-- `*count += 1` through `indegree.get_mut(name)`: bump the first entry
with the given key, if any. -/
def bumpIndeg (name : String) : List (String × Nat) → List (String × Nat)
  | [] => []
  | (k, v) :: rest =>
    if k = name then (k, v + 1) :: rest else (k, v) :: bumpIndeg name rest

/-- `adjacency.entry(dep).or_default().insert(name)`: add `name` to the
set stored under `dep`, creating the entry if absent.  (The `BTreeMap`
keeps entries sorted by key; this model appends new keys at the end,
which only changes an iteration order no embedded code observes —
`adjacency` is only ever read back through `get`.) -/
def adjInsert (dep child : String) : List (String × List String) → List (String × List String)
  | [] => [(dep, [child])]
  | (k, s) :: rest =>
    if k = dep then (k, setInsert child s) :: rest
    else (k, s) :: adjInsert dep child rest

/-- The inner `for dep in deps` loop of `build_graph` (resolve.rs lines
98–106): count an in-closure dependency into `name`'s indegree and record
the reverse edge. -/
def graphEdges (closure : List String) (name : String) (deps : List String)
    (acc : List (String × Nat) × List (String × List String)) :
    List (String × Nat) × List (String × List String) :=
  deps.foldl
    (fun (ia : List (String × Nat) × List (String × List String)) dep =>
      if closure.contains dep then (bumpIndeg name ia.1, adjInsert dep name ia.2)
      else ia)
    acc

/-- The outer `for name in closure` loop of `build_graph`. -/
def buildGraphGo (m : FormulaMap) (closure : List String) :
    List String → List (String × Nat) × List (String × List String) →
    Except Error (List (String × Nat) × List (String × List String))
  | [], acc => .ok acc
  | name :: rest, acc =>
    match m.lookup name with
    | none => .error (.missingFormula name)
    | some f => buildGraphGo m closure rest (graphEdges closure name (sortStrings f.dependencies) acc)

/-- `build_graph` (resolve.rs lines 85–110). -/
def build_graph (closure : List String) (m : FormulaMap) :
    Except Error (List (String × Nat) × List (String × List String)) :=
  buildGraphGo m closure closure (closure.map (fun n => (n, 0)), [])

/-- Write `v` into the first indegree entry with the given key
(the tail of `*count -= 1`). -/
def setIndeg (name : String) (v : Nat) : List (String × Nat) → List (String × Nat)
  | [] => []
  | (k, c) :: rest =>
    if k = name then (k, v) :: rest else (k, c) :: setIndeg name v rest

/-- Total indegree mass; the topological loop's termination measure. -/
def sumIndeg (l : List (String × Nat)) : Nat :=
  (l.map (fun p => p.2)).sum

/-- The `for child in children` body of `resolve_closure` (resolve.rs
lines 30–37): decrement each child's indegree and move children that
reach zero into the ready set.  `*count -= 1` acts on a `usize`; on
every state `build_graph` produces the count is positive here, so the
model guards the (unreachable) zero case to keep the subtraction exact. -/
def processChildren : List String → List (String × Nat) → List String →
    List (String × Nat) × List String
  | [], ind, ready => (ind, ready)
  | c :: cs, ind, ready =>
    match ind.lookup c with
    | none => processChildren cs ind ready
    | some cnt =>
      if cnt = 0 then processChildren cs ind ready
      else
        processChildren cs (setIndeg c (cnt - 1) ind)
          (if cnt - 1 = 0 then setInsert c ready else ready)

/-- `setIndeg` accounting: writing `v` over a looked-up count `cnt`
shifts the total mass by `v - cnt`. -/
theorem sumIndeg_setIndeg (c : String) (v : Nat) (ind : List (String × Nat))
    (cnt : Nat) (h : ind.lookup c = some cnt) :
    sumIndeg (setIndeg c v ind) + cnt = sumIndeg ind + v := by
  induction ind with
  | nil => simp [List.lookup] at h
  | cons p rest ih =>
    obtain ⟨k, n⟩ := p
    cases hbeq : (c == k) with
    | true =>
      have hk : c = k := eq_of_beq hbeq
      simp only [List.lookup, hbeq] at h
      cases h
      simp [setIndeg, hk, sumIndeg, List.map, List.sum_cons]
      omega
    | false =>
      have hk : ¬(k = c) := by
        intro hc
        rw [hc] at hbeq
        simp at hbeq
      simp only [List.lookup, hbeq] at h
      have := ih h
      simp only [setIndeg, if_neg hk, sumIndeg, List.map, List.sum_cons] at this ⊢
      omega

/-- `setInsert` grows a list by at most one element. -/
theorem length_setInsert (x : String) (l : List String) :
    (setInsert x l).length ≤ l.length + 1 := by
  induction l with
  | nil => simp [setInsert]
  | cons y ys ih =>
    simp only [setInsert]
    split_ifs with h1 h2
    · simp
    · simp
    · simpa using Nat.succ_le_succ ih

/-- Termination measure of the topological loop: processing the children
of a popped name never increases `ready.length + sumIndeg ind`. -/
theorem processChildren_measure (cs : List String) (ind : List (String × Nat))
    (ready : List String) :
    (processChildren cs ind ready).2.length + sumIndeg (processChildren cs ind ready).1
      ≤ ready.length + sumIndeg ind := by
  induction cs generalizing ind ready with
  | nil => simp [processChildren]
  | cons c rest ih =>
    simp only [processChildren]
    cases hl : ind.lookup c with
    | none => exact ih ind ready
    | some cnt =>
      by_cases hz : cnt = 0
      · simp only [hz, if_pos rfl]
        exact ih ind ready
      · simp only [if_neg hz]
        refine le_trans (ih _ _) ?_
        have hsum := sumIndeg_setIndeg c (cnt - 1) ind cnt hl
        have hlen := length_setInsert c ready
        split_ifs with hone
        · omega
        · omega

/-- The `while let Some(name) = ready.iter().next()` loop of
`resolve_closure` (resolve.rs lines 26–39): pop the least ready name,
append it to the order, decrement its children.  Returns the order and
the final (mutated) indegree map. -/
def topoLoop (adj : List (String × List String)) :
    List String → List (String × Nat) → List String →
    List String × List (String × Nat)
  | [], ind, ordered => (ordered, ind)
  | name :: rest, ind, ordered =>
    let pc := processChildren ((adj.lookup name).getD []) ind rest
    topoLoop adj pc.2 pc.1 (ordered ++ [name])
termination_by ready ind _ => ready.length + sumIndeg ind
decreasing_by
  refine Nat.lt_of_le_of_lt (processChildren_measure _ _ _) ?_
  simp only [List.length_cons]
  omega

/-- `resolve_closure` (resolve.rs lines 7–50). -/
def resolve_closure (roots : List String) (m : FormulaMap) :
    Except Error (List String) :=
  match compute_closure roots m with
  | .error e => .error e
  | .ok closure =>
    match build_graph closure m with
    | .error e => .error e
    | .ok (indeg, adj) =>
      -- ready: the zero-indegree names (`indeg` is keyed in closure
      -- order, which is ascending, so this list is a sorted set)
      let ready := (indeg.filter (fun p => p.2 = 0)).map (fun p => p.1)
      let tl := topoLoop adj ready indeg []
      if tl.1.length = closure.length then .ok tl.1
      else .error (.dependencyCycle
        ((tl.2.filter (fun p => p.2 > 0)).map (fun p => p.1)))

/-! ## Specification-side notions for the resolver

The transitive dependency closure of the roots, restricted to names
present in the map, and the edge bookkeeping used to verify the
topological sort. -/

/-- Transitive dependency closure of the roots restricted to the map:
the roots, plus every in-map dependency of a reachable node. -/
inductive Reach (roots : List String) (m : FormulaMap) : String → Prop where
  | root {r : String} : r ∈ roots → Reach roots m r
  | dep {n d : String} {f : Formula} : Reach roots m n → m.lookup n = some f →
      d ∈ f.dependencies → (m.lookup d).isSome = true → Reach roots m d

/-- The sorted dependency list a name contributes in `resolve.rs`
(empty for a name absent from the map). -/
def depsOf (m : FormulaMap) (n : String) : List String :=
  match m.lookup n with
  | some f => sortStrings f.dependencies
  | none => []

/-- The adjacency list stored under `d` (`adjacency.get(&d)`, defaulting
to the empty set). -/
def adjGet (adj : List (String × List String)) (d : String) : List String :=
  (adj.lookup d).getD []

/-- `build_graph`'s edge: `p` is an in-closure dependency of the
in-closure node `n` (`p` must precede `n`). -/
def edgeB (m : FormulaMap) (closure : List String) (p n : String) : Bool :=
  closure.contains p && closure.contains n && (depsOf m n).contains p

/-- The indegree `build_graph` assigns to `n`: its in-closure dependency
occurrences, with multiplicity. -/
def depCount (m : FormulaMap) (closure : List String) (n : String) : Nat :=
  ((depsOf m n).filter (fun d => closure.contains d)).length

/-- Ascending strict sortedness, the invariant of the `BTreeSet` model. -/
def StrSorted (l : List String) : Prop :=
  l.Pairwise (fun a b => sLt a b = true)

/-- The loop invariant of `resolve_closure`'s Kahn phase, over the state
(ready set, indegree map, emitted order). -/
structure KahnInv (m : FormulaMap) (closure : List String)
    (ready : List String) (ind : List (String × Nat)) (ordered : List String) : Prop where
  ordNodup : ordered.Nodup
  ordSub : ∀ x ∈ ordered, x ∈ closure
  rdySorted : StrSorted ready
  keys : ind.map Prod.fst = closure
  counts : ∀ n ∈ closure, ∃ c, ind.lookup n = some c ∧
    c + (ordered.filter (fun p => edgeB m closure p n)).length = depCount m closure n
  rdyChar : ∀ n, n ∈ ready ↔ (n ∈ closure ∧ n ∉ ordered ∧ ind.lookup n = some 0)
  ordZero : ∀ n ∈ ordered, ind.lookup n = some 0
  ordNoSelf : ∀ n ∈ ordered, edgeB m closure n n = false
  ordPairwise : List.Pairwise (fun a b => edgeB m closure b a = false) ordered

/-!
# Theorems

One theorem per claim of the specification, with witnesses instantiating
every hypothesis at concrete inputs, preceded by the helper lemmas they
share.
-/

/-- C8: `effective_version()` equals the stable version string iff
`revision == 0`; otherwise it is `stable ++ "_" ++ revision`; and the
bottle rebuild number never affects it. -/
theorem effective_version_spec (f : Formula) :
    (f.effective_version = f.stable ↔ f.revision = 0) ∧
    (f.revision ≠ 0 → f.effective_version = f.stable ++ "_" ++ toString f.revision) ∧
    (∀ r : Nat, Formula.effective_version { f with rebuild := r } = f.effective_version) := by
  refine ⟨⟨?_, ?_⟩, ?_, ?_⟩
  · intro h
    by_contra hzero
    have hpos : f.revision > 0 := Nat.pos_of_ne_zero hzero
    rw [Formula.effective_version, if_pos hpos] at h
    have hlen := congrArg String.length h
    rw [String.length_append, String.length_append] at hlen
    have : ("_" : String).length = 1 := rfl
    omega
  · intro h
    rw [Formula.effective_version, if_neg (by omega)]
  · intro h
    rw [Formula.effective_version, if_pos (Nat.pos_of_ne_zero h)]
  · intro r
    rfl

/-- C8 witness: a formula with revision 1 and rebuild 7. -/
theorem effective_version_spec_witness :
    Formula.effective_version
        ⟨"mysql", "8.0.1", [], [], 7, 1, .no⟩ = "8.0.1_1" ∧
      Formula.effective_version
        ⟨"wget", "1.2.3", [], [], 0, 0, .no⟩ = "1.2.3" := by
  constructor
  · exact (effective_version_spec ⟨"mysql", "8.0.1", [], [], 7, 1, .no⟩).2.1 (by decide)
  · exact (effective_version_spec ⟨"wget", "1.2.3", [], [], 0, 0, .no⟩).1.mpr rfl

/-- C9: a formula whose name contains `'@'` is keg-only regardless of the
`keg_only` metadata field, so the install loop's `should_link` guard is
false for it whatever the requested link flag. -/
theorem versioned_name_keg_only (f : Formula) (link : Bool)
    (h : strHasChar f.name '@' = true) :
    f.is_keg_only = true ∧ shouldLink link f = false := by
  have hk : f.is_keg_only = true := by
    rw [Formula.is_keg_only, h, Bool.true_or]
  exact ⟨hk, by rw [shouldLink, hk]; simp⟩

/-- C9 witness: `postgresql@15` with `keg_only` metadata `None` and
linking requested. -/
theorem versioned_name_keg_only_witness :
    Formula.is_keg_only ⟨"postgresql@15", "15.8", [], [], 0, 0, .no⟩ = true ∧
      shouldLink true ⟨"postgresql@15", "15.8", [], [], 0, 0, .no⟩ = false :=
  versioned_name_keg_only ⟨"postgresql@15", "15.8", [], [], 0, 0, .no⟩ true (by decide)

/-- The component fold of `normalize_path` over a run of components free
of `..`: every `.` is dropped and everything else is pushed, whatever
state the fold starts from. -/
theorem normFold_no_parent (p : List PComp) (acc : List PComp) (b : Bool)
    (hp : PComp.parentDir ∉ p) :
    (p.foldl normStep (acc, b)).1
      = (p.filter (fun c => c ≠ .parentDir && c ≠ .curDir)).reverse ++ acc := by
  induction p generalizing acc b with
  | nil => simp
  | cons c cs ih =>
    have hc : c ≠ .parentDir := fun h => hp (h ▸ List.mem_cons_self c cs)
    have hcs : PComp.parentDir ∉ cs := fun h => hp (List.mem_cons_of_mem c h)
    cases c with
    | rootDir =>
      rw [List.foldl_cons]
      show (cs.foldl normStep (.rootDir :: acc, true)).1 = _
      rw [ih _ _ hcs]
      simp
    | curDir =>
      rw [List.foldl_cons]
      show (cs.foldl normStep (acc, b)).1 = _
      rw [ih _ _ hcs]
      simp
    | parentDir => exact absurd rfl hc
    | normal s =>
      rw [List.foldl_cons]
      show (cs.foldl normStep (.normal s :: acc, b)).1 = _
      rw [ih _ _ hcs]
      simp

/-- Joining a `..`-free relative suffix onto any base only appends
(normalized) components: the normalization of the join extends the
normalization of the base. -/
theorem normalize_path_append (dest p : List PComp) (hp : PComp.parentDir ∉ p) :
    normalize_path (dest ++ p)
      = normalize_path dest
          ++ p.filter (fun c => c ≠ .parentDir && c ≠ .curDir) := by
  unfold normalize_path
  rw [List.foldl_append]
  have h := normFold_no_parent p (dest.foldl normStep ([], false)).1
    (dest.foldl normStep ([], false)).2 hp
  rw [show (dest.foldl normStep ([], false)).1 = ((dest.foldl normStep ([], false)).1,
      (dest.foldl normStep ([], false)).2).1 from rfl] at h
  rw [← Prod.mk.eta (p := dest.foldl normStep ([], false))] at h ⊢
  rw [h, List.reverse_append, List.reverse_reverse]

/-- C2: `validate_path` rejects (with `StoreCorruption`) every absolute
entry path and every path containing `..`; and for every relative path
without `..`, the normalized join stays under the normalized
destination, so `validate_path` accepts it. -/
theorem validate_path_spec (p dest : List PComp) :
    (pathIsAbsolute p = true ∨ PComp.parentDir ∈ p →
      ∃ msg, validate_path p dest = .error (.storeCorruption msg)) ∧
    (pathIsAbsolute p = false → PComp.parentDir ∉ p →
      normalize_path dest <+: normalize_path (pathJoin dest p) ∧
        validate_path p dest = .ok ()) := by
  constructor
  · intro h
    by_cases habs : pathIsAbsolute p = true
    · exact ⟨_, by rw [validate_path, if_pos habs]⟩
    · have hmem : PComp.parentDir ∈ p := by
        rcases h with h | h
        · exact absurd h habs
        · exact h
      have hany : p.any (· = .parentDir) = true :=
        List.any_eq_true.mpr ⟨.parentDir, hmem, by simp⟩
      exact ⟨_, by rw [validate_path, if_neg habs, if_pos hany]⟩
  · intro habs hp
    have hjoin : pathJoin dest p = dest ++ p := by
      rw [pathJoin, if_neg (by simp [habs])]
    have happ := normalize_path_append dest p hp
    have hpre : normalize_path dest <+: normalize_path (pathJoin dest p) := by
      rw [hjoin, happ]
      exact List.prefix_append _ _
    refine ⟨hpre, ?_⟩
    have hany : p.any (· = .parentDir) = false := by
      rw [← Bool.not_eq_true]
      intro hc
      obtain ⟨x, hx, hxe⟩ := List.any_eq_true.mp hc
      have hxp : x = PComp.parentDir := by simpa using hxe
      exact hp (hxp ▸ hx)
    rw [validate_path, if_neg (by simp [habs]), if_neg (by simp [hany])]
    rw [if_pos]
    exact List.isPrefixOf_iff_prefix.mpr hpre

/-- C2 witness: the traversal entry `../evil` is rejected, and
`bin/tool` under destination `store/abc` is accepted with the prefix
property. -/
theorem validate_path_spec_witness :
    (∃ msg, validate_path [.parentDir, .normal "evil"] [.normal "store", .normal "abc"]
        = .error (.storeCorruption msg)) ∧
      normalize_path [.normal "store", .normal "abc"]
          <+: normalize_path (pathJoin [.normal "store", .normal "abc"]
            [.normal "bin", .normal "tool"]) ∧
      validate_path [.normal "bin", .normal "tool"] [.normal "store", .normal "abc"]
        = .ok () :=
  ⟨(validate_path_spec [.parentDir, .normal "evil"] [.normal "store", .normal "abc"]).1
      (Or.inr (by decide)),
    (validate_path_spec [.normal "bin", .normal "tool"] [.normal "store", .normal "abc"]).2
      (by decide) (by decide)⟩

/-- C3: a successful `ensure_entry` returns `store/<key>`, and a second
serial call returns the same path without extracting and without
touching the state; any failing call leaves no `store/<key>` directory,
and (when the lock was acquired, which is where the claim's three
failure stages live) no temp directory for this key either. -/
theorem ensure_entry_spec (st : StoreState) (key : String) (pid : Nat)
    (env1 env2 : StoreEnv) :
    ((ensure_entry st key pid env1).result.isOk = true →
      (ensure_entry st key pid env1).result = .ok (entryPath key) ∧
      ensure_entry (ensure_entry st key pid env1).state key pid env2
        = ⟨.ok (entryPath key), (ensure_entry st key pid env1).state, false⟩) ∧
    (∀ e, (ensure_entry st key pid env1).result = .error e →
      key ∉ (ensure_entry st key pid env1).state.entries ∧
      (env1.lockFails = false →
        tmpName key pid ∉ (ensure_entry st key pid env1).state.tmps)) := by
  by_cases h1 : key ∈ st.entries
  · refine ⟨fun _ => ⟨by simp [ensure_entry, h1], by simp [ensure_entry, h1]⟩, ?_⟩
    intro e he
    simp [ensure_entry, h1] at he
  · by_cases h2 : env1.lockFails
    · refine ⟨fun hok => ?_, fun e he => ?_⟩
      · simp [ensure_entry, h1, h2, Except.isOk, Except.toBool] at hok
      · refine ⟨by simp [ensure_entry, h1, h2], fun hlf => ?_⟩
        rw [hlf] at h2
        exact absurd h2 (by decide)
    · by_cases h3 : env1.createTmpFails
      · refine ⟨fun hok => ?_, fun e he => ?_⟩
        · simp [ensure_entry, h1, h2, h3, Except.isOk, Except.toBool] at hok
        · refine ⟨by simp [ensure_entry, h1, h2, h3], fun _ => ?_⟩
          simp [ensure_entry, h1, h2, h3, List.mem_filter]
      · cases h4 : env1.extractErr with
        | some err =>
          refine ⟨fun hok => ?_, fun e he => ?_⟩
          · simp [ensure_entry, h1, h2, h3, h4, Except.isOk, Except.toBool] at hok
          · refine ⟨by simp [ensure_entry, h1, h2, h3, h4], fun _ => ?_⟩
            simp [ensure_entry, h1, h2, h3, h4, List.mem_filter]
        | none =>
          by_cases h5 : env1.renameFails
          · refine ⟨fun hok => ?_, fun e he => ?_⟩
            · simp [ensure_entry, h1, h2, h3, h4, h5, Except.isOk, Except.toBool] at hok
            · refine ⟨by simp [ensure_entry, h1, h2, h3, h4, h5], fun _ => ?_⟩
              simp [ensure_entry, h1, h2, h3, h4, h5, List.mem_filter]
          · refine ⟨fun _ => ?_, fun e he => ?_⟩
            · have hst : (ensure_entry st key pid env1).state.entries
                  = key :: (st.tmps.filter (· ≠ tmpName key pid) |> fun _ => st.entries) := by
                simp [ensure_entry, h1, h2, h3, h4, h5]
              refine ⟨by simp [ensure_entry, h1, h2, h3, h4, h5], ?_⟩
              have hmem : key ∈ (ensure_entry st key pid env1).state.entries := by
                simp [ensure_entry, h1, h2, h3, h4, h5]
              simp [ensure_entry, h1, h2, h3, h4, h5, hmem]
            · simp [ensure_entry, h1, h2, h3, h4, h5] at he

/-- C3 witness: a fresh store, one successful call, then an idempotent
second call; and an extraction-failure call leaving neither the entry
nor the temp directory. -/
theorem ensure_entry_spec_witness :
    ensure_entry (ensure_entry ⟨[], []⟩ "k" 7 ⟨false, false, none, false⟩).state "k" 7
        ⟨false, false, some (.storeCorruption "boom"), false⟩
      = ⟨.ok (entryPath "k"),
          (ensure_entry ⟨[], []⟩ "k" 7 ⟨false, false, none, false⟩).state, false⟩ ∧
    "k" ∉ (ensure_entry ⟨[], []⟩ "k" 7
        ⟨false, false, some (.storeCorruption "boom"), false⟩).state.entries ∧
    tmpName "k" 7 ∉ (ensure_entry ⟨[], []⟩ "k" 7
        ⟨false, false, some (.storeCorruption "boom"), false⟩).state.tmps := by
  have hfail := (ensure_entry_spec ⟨[], []⟩ "k" 7
      ⟨false, false, some (.storeCorruption "boom"), false⟩
      ⟨false, false, none, false⟩).2 (.storeCorruption "boom") rfl
  exact ⟨((ensure_entry_spec ⟨[], []⟩ "k" 7 ⟨false, false, none, false⟩
      ⟨false, false, some (.storeCorruption "boom"), false⟩).1 rfl).2,
    hfail.1, hfail.2 rfl⟩

/-- C6: the `start_write(sha) → write(bytes) → commit()` sequence
succeeds exactly when the hash of the written bytes equals the expected
sha; on mismatch it fails with `ChecksumMismatch` and leaves neither a
blob nor a partial named by that sha. -/
theorem download_write_spec (hash : List Nat → String) (st : BlobState) (sha : String)
    (bytes : List Nat) (hinit : sha ∉ st.blobs) :
    ((downloadWrite hash st sha bytes).1.isOk = true ↔ hash bytes = sha) ∧
    (hash bytes ≠ sha →
      (downloadWrite hash st sha bytes).1 = .error (.checksumMismatch sha (hash bytes)) ∧
        sha ∉ (downloadWrite hash st sha bytes).2.blobs ∧
        sha ∉ (downloadWrite hash st sha bytes).2.parts) := by
  simp only [downloadWrite, start_write, writeBytes, commitWriter, List.nil_append]
  by_cases h : hash bytes = sha
  · exact ⟨by simp [h, Except.isOk, Except.toBool], fun hc => absurd h hc⟩
  · refine ⟨by simp [h, Except.isOk, Except.toBool], fun _ => ⟨by simp [h], ?_, ?_⟩⟩
    · simp [h, hinit]
    · simp [h, List.mem_filter]

/-- C6 witness: a matching hash commits; a mismatching hash fails with
`ChecksumMismatch` leaving `blobs/` and the partials empty of the sha. -/
theorem download_write_spec_witness :
    (downloadWrite (fun _ => "aa") ⟨[], []⟩ "aa" [1, 2]).1.isOk = true ∧
      (downloadWrite (fun _ => "bb") ⟨[], []⟩ "aa" [1, 2]).1
          = .error (.checksumMismatch "aa" "bb") ∧
      "aa" ∉ (downloadWrite (fun _ => "bb") ⟨[], []⟩ "aa" [1, 2]).2.blobs ∧
      "aa" ∉ (downloadWrite (fun _ => "bb") ⟨[], []⟩ "aa" [1, 2]).2.parts :=
  ⟨(download_write_spec (fun _ => "aa") ⟨[], []⟩ "aa" [1, 2] (by decide)).1.mpr rfl,
    (download_write_spec (fun _ => "bb") ⟨[], []⟩ "aa" [1, 2] (by decide)).2 (by decide)⟩

/-- The preference loop returns exactly the head of the preference list
restricted to present tags. -/
theorem firstPresentTag_eq_head (files : List (String × BottleFile)) (tags : List String) :
    firstPresentTag files tags
      = (tags.filterMap (fun t => (files.lookup t).map (fun file => (t, file)))).head? := by
  induction tags with
  | nil => rfl
  | cons t ts ih =>
    simp only [firstPresentTag, List.filterMap_cons]
    cases h : files.lookup t with
    | some file => simp [h]
    | none => simp [h, ih]

/-- `find?` is the head of `filter`. -/
theorem find?_eq_head_filter {α : Type} (p : α → Bool) (l : List α) :
    l.find? p = (l.filter p).head? := by
  induction l with
  | nil => rfl
  | cons a as ih =>
    cases h : p a with
    | true =>
      have h1 : (a :: as).find? p = some a := by simp [List.find?_cons, h]
      have h2 : (a :: as).filter p = a :: as.filter p := by simp [List.filter_cons, h]
      rw [h1, h2]
      rfl
    | false =>
      have h1 : (a :: as).find? p = as.find? p := by simp [List.find?_cons, h]
      have h2 : (a :: as).filter p = as.filter p := by simp [List.filter_cons, h]
      rw [h1, h2, ih]

/-- `specSelect` fails (necessarily with `UnsupportedBottle`) exactly
when no preference tag is present, `all` is absent, and no bottle tag is
host-consistent. -/
theorem specSelect_error_iff (prefTags : List String) (consistent : String → Bool)
    (f : Formula) :
    specSelect prefTags consistent f = .error (.unsupportedBottle f.name) ↔
      ((∀ t ∈ prefTags, f.bottleFiles.lookup t = none) ∧
        f.bottleFiles.lookup "all" = none ∧
        ∀ p ∈ f.bottleFiles, consistent p.1 = false) := by
  cases h1 : prefTags.filterMap
      (fun t => (f.bottleFiles.lookup t).map (fun file => (t, file))) with
  | cons pr rest =>
    obtain ⟨t, ht, htl⟩ := List.mem_filterMap.mp (h1 ▸ List.mem_cons_self pr rest)
    obtain ⟨file, hfile, _⟩ := Option.map_eq_some'.mp htl
    constructor
    · intro hc
      obtain ⟨tg, fl⟩ := pr
      simp only [specSelect, h1] at hc
      cases hc
    · intro ⟨hnone, _, _⟩
      exact Option.noConfusion ((hnone t ht).symm.trans hfile)
  | nil =>
    cases h2 : f.bottleFiles.lookup "all" with
    | some file =>
      constructor
      · intro hc
        simp only [specSelect, h1, h2] at hc
        cases hc
      · intro ⟨_, hall, _⟩
        exact Option.noConfusion hall
    | none =>
      cases h3 : f.bottleFiles.filter (fun tf => consistent tf.1) with
      | cons pr rest =>
        have hmem : pr ∈ f.bottleFiles.filter (fun tf => consistent tf.1) :=
          h3 ▸ List.mem_cons_self pr rest
        have hp := List.of_mem_filter hmem
        have hin := List.mem_of_mem_filter hmem
        constructor
        · intro hc
          obtain ⟨tg, fl⟩ := pr
          simp only [specSelect, h1, h2, h3] at hc
          cases hc
        · intro ⟨_, _, hcons⟩
          exact Bool.noConfusion ((hcons pr hin).symm.trans hp)
      | nil =>
        have hLHS : specSelect prefTags consistent f
            = .error (.unsupportedBottle f.name) := by
          simp [specSelect, h1, h2, h3]
        refine ⟨fun _ => ⟨?_, rfl, ?_⟩, fun _ => hLHS⟩
        · intro t ht
          exact Option.map_eq_none'.mp (List.filterMap_eq_nil_iff.mp h1 t ht)
        · intro p hp
          simpa using List.filter_eq_nil_iff.mp h3 p hp

/-- C7: each platform variant of `select_bottle` implements the
spec-side selection (first present tag from the platform's fixed ordered
preference list, else `all`, else the first remaining host-consistent
bottle in map order), and fails — with `UnsupportedBottle` — exactly
when no candidate matches. -/
theorem select_bottle_platform_spec (f : Formula) :
    (select_bottle_linux f = specSelect ["x86_64_linux"] linuxConsistent f ∧
      (select_bottle_linux f = .error (.unsupportedBottle f.name) ↔
        ((∀ t ∈ ["x86_64_linux"], f.bottleFiles.lookup t = none) ∧
          f.bottleFiles.lookup "all" = none ∧
          ∀ p ∈ f.bottleFiles, linuxConsistent p.1 = false))) ∧
    (select_bottle_macos_arm f
        = specSelect ["arm64_tahoe", "arm64_sequoia", "arm64_sonoma", "arm64_ventura"]
            armConsistent f ∧
      (select_bottle_macos_arm f = .error (.unsupportedBottle f.name) ↔
        ((∀ t ∈ ["arm64_tahoe", "arm64_sequoia", "arm64_sonoma", "arm64_ventura"],
            f.bottleFiles.lookup t = none) ∧
          f.bottleFiles.lookup "all" = none ∧
          ∀ p ∈ f.bottleFiles, armConsistent p.1 = false))) ∧
    (select_bottle_macos_intel f
        = specSelect ["tahoe", "sequoia", "sonoma", "ventura"] intelConsistent f ∧
      (select_bottle_macos_intel f = .error (.unsupportedBottle f.name) ↔
        ((∀ t ∈ ["tahoe", "sequoia", "sonoma", "ventura"],
            f.bottleFiles.lookup t = none) ∧
          f.bottleFiles.lookup "all" = none ∧
          ∀ p ∈ f.bottleFiles, intelConsistent p.1 = false))) := by
  have hlin : select_bottle_linux f = specSelect ["x86_64_linux"] linuxConsistent f := by
    unfold select_bottle_linux specSelect
    rw [← firstPresentTag_eq_head, ← find?_eq_head_filter]
    rfl
  have harm : select_bottle_macos_arm f
      = specSelect ["arm64_tahoe", "arm64_sequoia", "arm64_sonoma", "arm64_ventura"]
          armConsistent f := by
    unfold select_bottle_macos_arm specSelect
    rw [← firstPresentTag_eq_head, ← find?_eq_head_filter]
    rfl
  have hintel : select_bottle_macos_intel f
      = specSelect ["tahoe", "sequoia", "sonoma", "ventura"] intelConsistent f := by
    unfold select_bottle_macos_intel specSelect
    rw [← firstPresentTag_eq_head, ← find?_eq_head_filter]
    rfl
  exact ⟨⟨hlin, hlin ▸ specSelect_error_iff _ _ f⟩,
    ⟨harm, harm ▸ specSelect_error_iff _ _ f⟩,
    ⟨hintel, hintel ▸ specSelect_error_iff _ _ f⟩⟩

/-- C7 witness: a formula with only an `arm64_monterey` bottle — on
Linux nothing matches (`UnsupportedBottle`); and one with an
`x86_64_linux` bottle, which the Linux variant picks. -/
theorem select_bottle_platform_spec_witness :
    select_bottle_linux ⟨"legacy", "0.1.0", [], [("arm64_monterey", ⟨"u", "s"⟩)], 0, 0, .no⟩
        = .error (.unsupportedBottle "legacy") ∧
      select_bottle_linux ⟨"foo", "1.2.3", [], [("x86_64_linux", ⟨"u2", "s2"⟩)], 0, 0, .no⟩
        = specSelect ["x86_64_linux"] linuxConsistent
            ⟨"foo", "1.2.3", [], [("x86_64_linux", ⟨"u2", "s2"⟩)], 0, 0, .no⟩ :=
  ⟨((select_bottle_platform_spec
        ⟨"legacy", "0.1.0", [], [("arm64_monterey", ⟨"u", "s"⟩)], 0, 0, .no⟩).1.2).mpr
      (by decide),
    (select_bottle_platform_spec
        ⟨"foo", "1.2.3", [], [("x86_64_linux", ⟨"u2", "s2"⟩)], 0, 0, .no⟩).1.1⟩

/-- The error an item records depends only on the item's oracle, never
on the accumulated state. -/
theorem execBottleItem_err (link : Bool) (st : InstState) (it : BottleItem) :
    (execBottleItem link st it).2.1 = itemErr link it := by
  obtain ⟨nm, f, dl, ex, mt, tb, tr, tc, lr, pl⟩ := it
  cases dl <;> cases ex <;> cases mt <;> cases tb <;> cases tr <;> cases tc <;> try rfl
  by_cases hs : shouldLink link f
  · cases lr with
    | ok files => simp [execBottleItem, itemErr, hs]
    | error e => simp [execBottleItem, itemErr, hs]
  · simp [execBottleItem, itemErr, hs]

/-- No step of the bottle loop ever removes a committed install. -/
theorem execBottleItem_committed_mono (link : Bool) (st : InstState) (it : BottleItem)
    (x : String) (h : x ∈ st.committed) :
    x ∈ (execBottleItem link st it).1.committed := by
  obtain ⟨nm, f, dl, ex, mt, tb, tr, tc, lr, pl⟩ := it
  cases dl <;> cases ex <;> cases mt <;> cases tb <;> cases tr <;> cases tc <;> try exact h
  by_cases hs : shouldLink link f
  · cases lr with
    | ok files =>
      simp only [execBottleItem, hs]
      simp [List.mem_cons, h]
    | error e =>
      simp only [execBottleItem, hs]
      simp [unlinkKeg, List.mem_cons, h]
  · simp only [execBottleItem, hs]
    simp [List.mem_cons, h]

/-- An item that survives its metadata commit ends the step committed,
whatever happens during linking. -/
theorem execBottleItem_commits (link : Bool) (st : InstState) (it : BottleItem)
    (h : itemCommits it = true) :
    it.installName ∈ (execBottleItem link st it).1.committed := by
  obtain ⟨nm, f, dl, ex, mt, tb, tr, tc, lr, pl⟩ := it
  simp only [itemCommits, Bool.and_eq_true, Option.isNone_iff_eq_none] at h
  obtain ⟨⟨⟨⟨⟨h1, h2⟩, h3⟩, h4⟩, h5⟩, h6⟩ := h
  subst h1 h2 h3 h4 h5 h6
  by_cases hs : shouldLink link f
  · cases lr with
    | ok files => simp [execBottleItem, hs]
    | error e => simp [execBottleItem, hs, unlinkKeg]
  · simp [execBottleItem, hs]

/-- The bottle loop's final `error` slot holds the last recorded error
(or the initial contents when no item errs). -/
theorem execBottleItems_err (link : Bool) (items : List BottleItem) :
    ∀ (st : InstState) (err : Option Error) (n : Nat),
    (execBottleItems link st err n items).2.1
      = lastRecorded err (items.filterMap (itemErr link)) := by
  induction items with
  | nil => intro st err n; rfl
  | cons it rest ih =>
    intro st err n
    simp only [execBottleItems]
    rw [ih, execBottleItem_err]
    cases h : itemErr link it with
    | some e => simp [List.filterMap_cons, h, lastRecorded]
    | none => simp [List.filterMap_cons, h, lastRecorded]

/-- Committed installs survive the whole bottle loop. -/
theorem execBottleItems_committed_mono (link : Bool) (items : List BottleItem) :
    ∀ (st : InstState) (err : Option Error) (n : Nat) (x : String),
    x ∈ st.committed → x ∈ (execBottleItems link st err n items).1.committed := by
  induction items with
  | nil => intro st err n x h; exact h
  | cons it rest ih =>
    intro st err n x h
    exact ih _ _ _ x (execBottleItem_committed_mono link st it x h)

/-- Every item that survives its commit is committed at the end of the
bottle loop, whatever later items do. -/
theorem execBottleItems_commits (link : Bool) (items : List BottleItem)
    (it : BottleItem) (hmem : it ∈ items) (hc : itemCommits it = true) :
    ∀ (st : InstState) (err : Option Error) (n : Nat),
    it.installName ∈ (execBottleItems link st err n items).1.committed := by
  induction items with
  | nil => cases hmem
  | cons a rest ih =>
    intro st err n
    rcases List.mem_cons.mp hmem with heq | htail
    · subst heq
      exact execBottleItems_committed_mono link rest _ _ _ _
        (execBottleItem_commits link st it hc)
    · exact ih htail _ _ _

/-- The source loop's final error slot likewise holds the last recorded
error. -/
theorem execSourceItems_err (outcomes : List (Option Error)) :
    ∀ (err : Option Error) (n : Nat),
    (execSourceItems err n outcomes).1 = lastRecorded err (outcomes.filterMap id) := by
  induction outcomes with
  | nil => intro err n; rfl
  | cons o rest ih =>
    intro err n
    cases o with
    | some e =>
      simp only [execSourceItems]
      rw [ih]
      simp [List.filterMap_cons, lastRecorded]
    | none =>
      simp only [execSourceItems]
      rw [ih]
      simp [List.filterMap_cons, lastRecorded]

/-- `lastRecorded` is the last element when one exists. -/
theorem lastRecorded_eq (l : List Error) :
    ∀ init, lastRecorded init l
      = match l.getLast? with
        | some e => some e
        | none => init := by
  induction l with
  | nil => intro init; rfl
  | cons x xs ih =>
    intro init
    cases xs with
    | nil => rfl
    | cons y ys =>
      have h1 : lastRecorded init (x :: y :: ys) = lastRecorded (some x) (y :: ys) := rfl
      rw [h1, ih (some x), List.getLast?_cons_cons]
      cases h : (y :: ys).getLast? with
      | some e => rfl
      | none => simp at h

/-- `lastRecorded` composes over concatenation. -/
theorem lastRecorded_append (a b : List Error) (init : Option Error) :
    lastRecorded init (a ++ b) = lastRecorded (lastRecorded init a) b := by
  simp [lastRecorded, List.foldl_append]

/-- C4 (amended): when at least one package fails, the orchestrator
returns the LAST error recorded during execution (the single `error`
slot is overwritten on each failure); with no failure it returns the
installed count; and every package whose metadata commit succeeded —
before or after any failing package — remains committed. -/
theorem execute_last_error_and_commits (link : Bool) (st : InstState)
    (bottles : List BottleItem) (sources : List (Option Error)) :
    (∀ e, (recordedErrors link bottles sources).getLast? = some e →
      (execute_with_progress link st bottles sources).1 = .error e) ∧
    (recordedErrors link bottles sources = [] →
      ∃ n, (execute_with_progress link st bottles sources).1 = .ok n) ∧
    (∀ x ∈ st.committed,
      x ∈ (execute_with_progress link st bottles sources).2.committed) ∧
    (∀ it ∈ bottles, itemCommits it = true →
      it.installName ∈ (execute_with_progress link st bottles sources).2.committed) := by
  have herr : (execSourceItems (execBottleItems link st none 0 bottles).2.1
        (execBottleItems link st none 0 bottles).2.2 sources).1
      = lastRecorded none (recordedErrors link bottles sources) := by
    rw [execSourceItems_err, execBottleItems_err, recordedErrors, lastRecorded_append]
  refine ⟨?_, ?_, ?_, ?_⟩
  · intro e he
    have h2 : (execSourceItems (execBottleItems link st none 0 bottles).2.1
          (execBottleItems link st none 0 bottles).2.2 sources).1 = some e := by
      rw [herr, lastRecorded_eq, he]
    simp only [execute_with_progress]
    rw [h2]
  · intro hempty
    have h2 : (execSourceItems (execBottleItems link st none 0 bottles).2.1
          (execBottleItems link st none 0 bottles).2.2 sources).1 = none := by
      rw [herr, hempty]
      rfl
    refine ⟨(execSourceItems (execBottleItems link st none 0 bottles).2.1
        (execBottleItems link st none 0 bottles).2.2 sources).2, ?_⟩
    simp only [execute_with_progress]
    rw [h2]
  · intro x hx
    simp only [execute_with_progress]
    cases h : (execSourceItems (execBottleItems link st none 0 bottles).2.1
        (execBottleItems link st none 0 bottles).2.2 sources).1 <;>
      exact execBottleItems_committed_mono link bottles st none 0 x hx
  · intro it hit hc
    simp only [execute_with_progress]
    cases h : (execSourceItems (execBottleItems link st none 0 bottles).2.1
        (execBottleItems link st none 0 bottles).2.2 sources).1 <;>
      exact execBottleItems_commits link bottles it hit hc st none 0

/-- C4 witness: one committed success followed by one download failure;
the success stays committed and the failure's error is returned. -/
theorem execute_last_error_and_commits_witness :
    (execute_with_progress true ⟨[], [], []⟩
        [⟨"good", ⟨"good", "1", [], [], 0, 0, .no⟩, none, none, none, none, none, none,
            .ok [], []⟩,
          ⟨"bad", ⟨"bad", "1", [], [], 0, 0, .no⟩, some (.networkFailure "boom"), none,
            none, none, none, none, .ok [], []⟩] []).1
      = .error (.networkFailure "boom") ∧
    "good" ∈ (execute_with_progress true ⟨[], [], []⟩
        [⟨"good", ⟨"good", "1", [], [], 0, 0, .no⟩, none, none, none, none, none, none,
            .ok [], []⟩,
          ⟨"bad", ⟨"bad", "1", [], [], 0, 0, .no⟩, some (.networkFailure "boom"), none,
            none, none, none, none, .ok [], []⟩] []).2.committed := by
  have h := execute_last_error_and_commits true ⟨[], [], []⟩
      [⟨"good", ⟨"good", "1", [], [], 0, 0, .no⟩, none, none, none, none, none, none,
          .ok [], []⟩,
        ⟨"bad", ⟨"bad", "1", [], [], 0, 0, .no⟩, some (.networkFailure "boom"), none,
          none, none, none, none, .ok [], []⟩] []
  exact ⟨h.1 (.networkFailure "boom") rfl,
    h.2.2.2 _ (List.mem_cons_self _ _) rfl⟩

/-- C4 counterexample: with two failing packages the orchestrator
returns the SECOND recorded error, not the first one that the claim
promises. -/
theorem execute_first_error_counterexample :
    recordedErrors true
        [⟨"a", ⟨"a", "1", [], [], 0, 0, .no⟩, some (.networkFailure "ea"), none, none,
            none, none, none, .ok [], []⟩,
          ⟨"b", ⟨"b", "1", [], [], 0, 0, .no⟩, some (.networkFailure "eb"), none, none,
            none, none, none, .ok [], []⟩] []
      = [.networkFailure "ea", .networkFailure "eb"] ∧
    (execute_with_progress true ⟨[], [], []⟩
        [⟨"a", ⟨"a", "1", [], [], 0, 0, .no⟩, some (.networkFailure "ea"), none, none,
            none, none, none, .ok [], []⟩,
          ⟨"b", ⟨"b", "1", [], [], 0, 0, .no⟩, some (.networkFailure "eb"), none, none,
            none, none, none, .ok [], []⟩] []).1
      = .error (.networkFailure "eb") ∧
    Error.networkFailure "eb" ≠ Error.networkFailure "ea" :=
  ⟨rfl, rfl, by decide⟩

/-- C5 (amended): when overlay linking fails for a bottle item (link
requested, formula not keg-only), the loop unlinks every symlink of that
keg (including the partially created ones), records the link error, and
moves on — but the keg directory is NOT deleted: the install stays
materialized and committed and still counts as installed. -/
theorem link_failure_behavior (link : Bool) (st : InstState) (it : BottleItem) (e : Error)
    (hd : it.download = none) (hx : it.extract = none) (hm : it.materialize = none)
    (hb : it.txBegin = none) (hr : it.txRecord = none) (hc : it.txCommit = none)
    (hs : shouldLink link it.formula = true) (hl : it.linkResult = .error e) :
    (execBottleItem link st it).2.1 = some e ∧
    (execBottleItem link st it).2.2 = 1 ∧
    it.formula.name ∈ (execBottleItem link st it).1.kegs ∧
    it.installName ∈ (execBottleItem link st it).1.committed ∧
    ∀ p, (it.formula.name, p) ∉ (execBottleItem link st it).1.links := by
  refine ⟨?_, ?_, ?_, ?_, ?_⟩ <;>
    simp [execBottleItem, hd, hx, hm, hb, hr, hc, hs, hl, unlinkKeg, List.mem_filter]

/-- C5 witness: a concrete item whose `link_keg` fails with a conflict
after creating one symlink. -/
theorem link_failure_behavior_witness :
    (execBottleItem true ⟨[], [], []⟩
        ⟨"pkg", ⟨"pkg", "1", [], [], 0, 0, .no⟩, none, none, none, none, none, none,
          .error (.linkConflict []), ["bin/pkg"]⟩).2.1 = some (.linkConflict []) ∧
    (execBottleItem true ⟨[], [], []⟩
        ⟨"pkg", ⟨"pkg", "1", [], [], 0, 0, .no⟩, none, none, none, none, none, none,
          .error (.linkConflict []), ["bin/pkg"]⟩).2.2 = 1 ∧
    "pkg" ∈ (execBottleItem true ⟨[], [], []⟩
        ⟨"pkg", ⟨"pkg", "1", [], [], 0, 0, .no⟩, none, none, none, none, none, none,
          .error (.linkConflict []), ["bin/pkg"]⟩).1.kegs ∧
    "pkg" ∈ (execBottleItem true ⟨[], [], []⟩
        ⟨"pkg", ⟨"pkg", "1", [], [], 0, 0, .no⟩, none, none, none, none, none, none,
          .error (.linkConflict []), ["bin/pkg"]⟩).1.committed ∧
    ∀ p, ("pkg", p) ∉ (execBottleItem true ⟨[], [], []⟩
        ⟨"pkg", ⟨"pkg", "1", [], [], 0, 0, .no⟩, none, none, none, none, none, none,
          .error (.linkConflict []), ["bin/pkg"]⟩).1.links :=
  link_failure_behavior true ⟨[], [], []⟩
    ⟨"pkg", ⟨"pkg", "1", [], [], 0, 0, .no⟩, none, none, none, none, none, none,
      .error (.linkConflict []), ["bin/pkg"]⟩ (.linkConflict [])
    rfl rfl rfl rfl rfl rfl rfl rfl

/-- C5 counterexample: one bottle item whose linking fails; the
orchestrator surfaces the link error but the keg directory survives and
the item is counted installed — the claim's "deletes the keg directory"
does not happen. -/
theorem link_failure_deletes_keg_counterexample :
    (execute_with_progress true ⟨[], [], []⟩
        [⟨"pkg", ⟨"pkg", "1", [], [], 0, 0, .no⟩, none, none, none, none, none, none,
            .error (.linkConflict []), ["bin/pkg"]⟩] []).2.kegs = ["pkg"] ∧
    (execute_with_progress true ⟨[], [], []⟩
        [⟨"pkg", ⟨"pkg", "1", [], [], 0, 0, .no⟩, none, none, none, none, none, none,
            .error (.linkConflict []), ["bin/pkg"]⟩] []).1
      = .error (.linkConflict []) :=
  ⟨rfl, rfl⟩

/-- The character-list order is irreflexive. -/
theorem clLt_irrefl (l : List Char) : clLt l l = false := by
  induction l with
  | nil => rfl
  | cons c cs ih => simp [clLt, ih]

/-- The character-list order is total. -/
theorem clLt_total (a : List Char) : ∀ b, a = b ∨ clLt a b = true ∨ clLt b a = true := by
  induction a with
  | nil =>
    intro b
    cases b with
    | nil => exact Or.inl rfl
    | cons y ys => exact Or.inr (Or.inl rfl)
  | cons x xs ih =>
    intro b
    cases b with
    | nil => exact Or.inr (Or.inr rfl)
    | cons y ys =>
      by_cases hxy : x = y
      · subst hxy
        rcases ih ys with h | h | h
        · exact Or.inl (h ▸ rfl)
        · exact Or.inr (Or.inl (by simp [clLt, h]))
        · exact Or.inr (Or.inr (by simp [clLt, h]))
      · rcases Nat.lt_trichotomy x.toNat y.toNat with h | h | h
        · exact Or.inr (Or.inl (by simp [clLt, hxy, h]))
        · exact absurd (Char.ext (UInt32.toNat.inj h)) hxy
        · have hyx : ¬y = x := fun hc => hxy hc.symm
          exact Or.inr (Or.inr (by rw [clLt, if_neg hyx]; exact decide_eq_true h))

/-- The character-list order is transitive. -/
theorem clLt_trans (a : List Char) :
    ∀ b c, clLt a b = true → clLt b c = true → clLt a c = true := by
  induction a with
  | nil =>
    intro b c hab hbc
    cases c with
    | nil =>
      cases b with
      | nil => exact hab
      | cons y ys => simp [clLt] at hbc
    | cons z zs => rfl
  | cons x xs ih =>
    intro b c hab hbc
    cases b with
    | nil => simp [clLt] at hab
    | cons y ys =>
      cases c with
      | nil => simp [clLt] at hbc
      | cons z zs =>
        by_cases hxy : x = y
        · subst hxy
          rw [clLt, if_pos rfl] at hab
          by_cases hyz : x = z
          · subst hyz
            rw [clLt, if_pos rfl] at hbc ⊢
            exact ih ys zs hab hbc
          · rw [clLt, if_neg hyz] at hbc ⊢
            exact hbc
        · rw [clLt, if_neg hxy] at hab
          by_cases hyz : y = z
          · subst hyz
            rw [clLt, if_neg hxy]
            exact hab
          · rw [clLt, if_neg hyz] at hbc
            have hx : x.toNat < y.toNat := of_decide_eq_true hab
            have hy : y.toNat < z.toNat := of_decide_eq_true hbc
            have hxz : x ≠ z := by
              intro hc
              subst hc
              omega
            rw [clLt, if_neg hxz]
            exact decide_eq_true (by omega)

/-- `sLt` is transitive. -/
theorem sLt_trans {a b c : String} (h1 : sLt a b = true) (h2 : sLt b c = true) :
    sLt a c = true := clLt_trans a.data b.data c.data h1 h2

/-- `sLt` is irreflexive. -/
theorem sLt_irrefl (a : String) : sLt a a = false := clLt_irrefl a.data

/-- `sLt` is total. -/
theorem sLt_total (a b : String) : a = b ∨ sLt a b = true ∨ sLt b a = true := by
  rcases clLt_total a.data b.data with h | h | h
  · exact Or.inl (by cases a; cases b; exact congrArg String.mk h)
  · exact Or.inr (Or.inl h)
  · exact Or.inr (Or.inr h)

/-- `setInsert` preserves sortedness. -/
theorem strSorted_setInsert (x : String) (l : List String) (h : StrSorted l) :
    StrSorted (setInsert x l) := by
  induction l with
  | nil => simp [setInsert, StrSorted]
  | cons y ys ih =>
    rcases List.pairwise_cons.mp h with ⟨hy, hys⟩
    simp only [setInsert]
    split_ifs with h1 h2
    · refine List.pairwise_cons.mpr ⟨?_, h⟩
      intro b hb
      rcases List.mem_cons.mp hb with rfl | hb
      · exact h1
      · exact sLt_trans h1 (hy b hb)
    · exact h
    · refine List.pairwise_cons.mpr ⟨?_, ih hys⟩
      intro b hb
      rcases (mem_setInsert x b ys).mp hb with rfl | hb
      · rcases sLt_total y b with rfl | hyb | hby
        · exact absurd rfl h2
        · exact hyb
        · exact absurd hby (by simp [h1])
      · exact hy b hb

/-- Sorted lists are duplicate-free. -/
theorem strSorted_nodup {l : List String} (h : StrSorted l) : l.Nodup := by
  refine h.imp ?_
  intro a b hab hc
  subst hc
  rw [sLt_irrefl a] at hab
  cases hab

/-- Membership in a `sortInsert`. -/
theorem mem_sortInsert (x a : String) (l : List String) :
    a ∈ sortInsert x l ↔ a = x ∨ a ∈ l := by
  induction l with
  | nil => simp [sortInsert]
  | cons y ys ih =>
    simp only [sortInsert]
    split_ifs with h1
    · simp [List.mem_cons]
    · simp only [List.mem_cons, ih]
      tauto

/-- `sortStrings` does not change membership. -/
theorem mem_sortStrings (a : String) (l : List String) :
    a ∈ sortStrings l ↔ a ∈ l := by
  induction l with
  | nil => simp [sortStrings]
  | cons x xs ih =>
    show a ∈ sortInsert x (sortStrings xs) ↔ _
    rw [mem_sortInsert, ih, List.mem_cons]

/-- A key among the map's keys has a `lookup` hit. -/
theorem lookup_isSome_of_mem_keys {β : Type} {m : List (String × β)} {x : String}
    (h : x ∈ m.map Prod.fst) : (m.lookup x).isSome = true := by
  induction m with
  | nil => simp at h
  | cons p rest ih =>
    obtain ⟨k, b⟩ := p
    rcases List.mem_cons.mp h with hk | hk
    · simp only at hk
      subst hk
      simp [List.lookup]
    · cases hbeq : (x == k) with
      | true => simp [List.lookup, hbeq]
      | false => simpa [List.lookup, hbeq] using ih hk

/-- `setIndeg` rewrites exactly the stored count of its key. -/
theorem lookup_setIndeg (c : String) (v : Nat) (ind : List (String × Nat)) (x : String) :
    (setIndeg c v ind).lookup x
      = if x = c then (ind.lookup c).map (fun _ => v) else ind.lookup x := by
  induction ind with
  | nil => simp [setIndeg, List.lookup]
  | cons p rest ih =>
    obtain ⟨k, n⟩ := p
    rw [setIndeg]
    by_cases hkc : k = c
    · rw [if_pos hkc]
      subst hkc
      by_cases hxk : x = k
      · subst hxk
        simp [List.lookup]
      · have hbeq : (x == k) = false := beq_eq_false_iff_ne.mpr hxk
        simp [List.lookup, hbeq, hxk]
    · rw [if_neg hkc]
      have hck : (c == k) = false := beq_eq_false_iff_ne.mpr (fun h => hkc h.symm)
      by_cases hxk : x = k
      · have hxc : ¬x = c := fun h => hkc (hxk.symm.trans h)
        have hxbeq : (x == k) = true := beq_iff_eq.mpr hxk
        simp [List.lookup, hxbeq, hxc, hck]
      · have hxbeq : (x == k) = false := beq_eq_false_iff_ne.mpr hxk
        simp [List.lookup, hxbeq, hck, ih]

/-- `setIndeg` keeps the key list. -/
theorem keys_setIndeg (c : String) (v : Nat) (ind : List (String × Nat)) :
    (setIndeg c v ind).map Prod.fst = ind.map Prod.fst := by
  induction ind with
  | nil => rfl
  | cons p rest ih =>
    obtain ⟨k, n⟩ := p
    by_cases hkc : k = c
    · simp [setIndeg, hkc]
    · simp [setIndeg, hkc, ih]

/-- `bumpIndeg` increments exactly the stored count of its key. -/
theorem lookup_bumpIndeg (c : String) (ind : List (String × Nat)) (x : String) :
    (bumpIndeg c ind).lookup x
      = if x = c then (ind.lookup c).map (fun n => n + 1) else ind.lookup x := by
  induction ind with
  | nil => simp [bumpIndeg, List.lookup]
  | cons p rest ih =>
    obtain ⟨k, n⟩ := p
    rw [bumpIndeg]
    by_cases hkc : k = c
    · rw [if_pos hkc]
      subst hkc
      by_cases hxk : x = k
      · subst hxk
        simp [List.lookup]
      · have hbeq : (x == k) = false := beq_eq_false_iff_ne.mpr hxk
        simp [List.lookup, hbeq, hxk]
    · rw [if_neg hkc]
      have hck : (c == k) = false := beq_eq_false_iff_ne.mpr (fun h => hkc h.symm)
      by_cases hxk : x = k
      · have hxc : ¬x = c := fun h => hkc (hxk.symm.trans h)
        have hxbeq : (x == k) = true := beq_iff_eq.mpr hxk
        simp [List.lookup, hxbeq, hxc, hck]
      · have hxbeq : (x == k) = false := beq_eq_false_iff_ne.mpr hxk
        simp [List.lookup, hxbeq, hck, ih]

/-- `bumpIndeg` keeps the key list. -/
theorem keys_bumpIndeg (c : String) (ind : List (String × Nat)) :
    (bumpIndeg c ind).map Prod.fst = ind.map Prod.fst := by
  induction ind with
  | nil => rfl
  | cons p rest ih =>
    obtain ⟨k, n⟩ := p
    by_cases hkc : k = c
    · simp [bumpIndeg, hkc]
    · simp [bumpIndeg, hkc, ih]

/-- `adjInsert` rewrites exactly the set stored under its key. -/
theorem adjGet_adjInsert (d c : String) (adj : List (String × List String)) (x : String) :
    adjGet (adjInsert d c adj) x
      = if x = d then setInsert c (adjGet adj d) else adjGet adj x := by
  induction adj with
  | nil =>
    by_cases hxd : x = d
    · subst hxd
      have hbeq : (x == x) = true := beq_self_eq_true x
      simp [adjInsert, adjGet, List.lookup, hbeq, setInsert]
    · have hbeq : (x == d) = false := beq_eq_false_iff_ne.mpr hxd
      simp [adjInsert, adjGet, List.lookup, hbeq, hxd]
  | cons p rest ih =>
    obtain ⟨k, s⟩ := p
    rw [adjInsert]
    by_cases hkd : k = d
    · rw [if_pos hkd]
      subst hkd
      by_cases hxk : x = k
      · subst hxk
        simp [adjGet, List.lookup]
      · have hbeq : (x == k) = false := beq_eq_false_iff_ne.mpr hxk
        simp [adjGet, List.lookup, hbeq, hxk]
    · rw [if_neg hkd]
      have hdk : (d == k) = false := beq_eq_false_iff_ne.mpr (fun h => hkd h.symm)
      by_cases hxk : x = k
      · have hxd : ¬x = d := fun h => hkd (hxk.symm.trans h)
        have hxbeq : (x == k) = true := beq_iff_eq.mpr hxk
        simp [adjGet, List.lookup, hxbeq, hxd, hdk]
      · have hxbeq : (x == k) = false := beq_eq_false_iff_ne.mpr hxk
        simp only [adjGet, List.lookup, hxbeq, hdk] at ih ⊢
        exact ih

/-- A duplicate-free list is no longer than any list containing it. -/
theorem nodup_subset_length {l₁ l₂ : List String} (hnd : l₁.Nodup) (hsub : l₁ ⊆ l₂) :
    l₁.length ≤ l₂.length := by
  calc l₁.length = l₁.toFinset.card := (List.toFinset_card_of_nodup hnd).symm
    _ ≤ l₂.toFinset.card := Finset.card_le_card (fun x hx => by
        rw [List.mem_toFinset] at hx ⊢
        exact hsub hx)
    _ ≤ l₂.length := List.toFinset_card_le l₂

/-- `List.contains` agrees with membership over strings. -/
theorem contains_iff (l : List String) (a : String) : l.contains a = true ↔ a ∈ l := by
  simp

/-- The DFS loop, on success: the result extends closure and stack, is
sorted, holds only looked-up (hence in-map) names, is dependency-closed,
and holds only names reachable from the roots — provided the incoming
state already satisfies these invariants. -/
theorem closureAux_ok (roots : List String) (m : FormulaMap) :
    ∀ (closure stack : List String),
      StrSorted closure →
      (∀ x ∈ closure, (m.lookup x).isSome = true) →
      (∀ n ∈ closure, ∀ d ∈ depsOf m n, (m.lookup d).isSome = true →
        d ∈ closure ∨ d ∈ stack) →
      (∀ x ∈ closure, Reach roots m x) →
      (∀ x ∈ stack, Reach roots m x) →
      ∀ out, closureAux m closure stack = .ok out →
        StrSorted out ∧
        (∀ x ∈ closure, x ∈ out) ∧
        (∀ x ∈ stack, x ∈ out) ∧
        (∀ x ∈ out, (m.lookup x).isSome = true) ∧
        (∀ n ∈ out, ∀ d ∈ depsOf m n, (m.lookup d).isSome = true → d ∈ out) ∧
        (∀ x ∈ out, Reach roots m x) := by
  intro closure stack
  induction closure, stack using closureAux.induct m with
  | case1 closure =>
    intro hsort hin hcd hRc hRs out hok
    rw [closureAux] at hok
    cases hok
    refine ⟨hsort, fun x hx => hx, by simp, hin, ?_, hRc⟩
    intro n hn d hd hds
    rcases hcd n hn d hd hds with h | h
    · exact h
    · simp at h
  | case2 closure y ys hmem ih =>
    intro hsort hin hcd hRc hRs out hok
    rw [closureAux, if_pos hmem] at hok
    have hcd' : ∀ n ∈ closure, ∀ d ∈ depsOf m n, (m.lookup d).isSome = true →
        d ∈ closure ∨ d ∈ ys := by
      intro n hn d hd hds
      rcases hcd n hn d hd hds with h | h
      · exact Or.inl h
      · rcases List.mem_cons.mp h with rfl | h
        · exact Or.inl hmem
        · exact Or.inr h
    obtain ⟨o1, o2, o3, o4, o5, o6⟩ := ih hsort hin hcd' hRc
      (fun x hx => hRs x (List.mem_cons_of_mem _ hx)) out hok
    refine ⟨o1, o2, ?_, o4, o5, o6⟩
    intro x hx
    rcases List.mem_cons.mp hx with rfl | hx
    · exact o2 x hmem
    · exact o3 x hx
  | case3 closure y ys hmem hlook =>
    intro hsort hin hcd hRc hRs out hok
    rw [closureAux, if_neg hmem, hlook] at hok
    cases hok
  | case4 closure y ys hmem closure' f hlook kept ih =>
    intro hsort hin hcd hRc hRs out hok
    rw [closureAux, if_neg hmem, hlook] at hok
    have hReachY : Reach roots m y := hRs y (List.mem_cons_self _ _)
    have hsort' : StrSorted (setInsert y closure) := strSorted_setInsert y closure hsort
    have hin' : ∀ x ∈ setInsert y closure, (m.lookup x).isSome = true := by
      intro x hx
      rcases (mem_setInsert y x closure).mp hx with rfl | hx
      · rw [hlook]
        rfl
      · exact hin x hx
    have hkeptdep : ∀ d ∈ kept, d ∈ depsOf m y ∧ (m.lookup d).isSome = true := by
      intro d hd
      have h1 := List.mem_filter.mp hd
      refine ⟨?_, (Bool.and_eq_true _ _ |>.mp h1.2).1⟩
      show d ∈ depsOf m y
      rw [depsOf, hlook]
      exact h1.1
    have hcd' : ∀ n ∈ setInsert y closure, ∀ d ∈ depsOf m n,
        (m.lookup d).isSome = true → d ∈ setInsert y closure ∨ d ∈ kept.reverse ++ ys := by
      intro n hn d hd hds
      rcases (mem_setInsert y n closure).mp hn with rfl | hn
      · by_cases hdc : d ∈ setInsert n closure
        · exact Or.inl hdc
        · refine Or.inr (List.mem_append.mpr (Or.inl (List.mem_reverse.mpr ?_)))
          refine List.mem_filter.mpr ⟨?_, ?_⟩
          · show d ∈ sortStrings f.dependencies
            rw [depsOf, hlook] at hd
            exact hd
          · rw [Bool.and_eq_true, hds]
            refine ⟨rfl, ?_⟩
            rw [Bool.not_eq_true', ← Bool.not_eq_true]
            intro hc
            exact hdc ((contains_iff _ _).mp hc)
      · rcases hcd n hn d hd hds with h | h
        · exact Or.inl ((mem_setInsert y d closure).mpr (Or.inr h))
        · rcases List.mem_cons.mp h with rfl | h
          · exact Or.inl ((mem_setInsert d d closure).mpr (Or.inl rfl))
          · exact Or.inr (List.mem_append.mpr (Or.inr h))
    have hRc' : ∀ x ∈ setInsert y closure, Reach roots m x := by
      intro x hx
      rcases (mem_setInsert y x closure).mp hx with rfl | hx
      · exact hReachY
      · exact hRc x hx
    have hRs' : ∀ x ∈ kept.reverse ++ ys, Reach roots m x := by
      intro x hx
      rcases List.mem_append.mp hx with hx | hx
      · obtain ⟨hdep, hsome⟩ := hkeptdep x (List.mem_reverse.mp hx)
        have hdep' : x ∈ f.dependencies := by
          rw [depsOf, hlook] at hdep
          exact (mem_sortStrings x f.dependencies).mp hdep
        exact Reach.dep hReachY hlook hdep' hsome
      · exact hRs x (List.mem_cons_of_mem _ hx)
    obtain ⟨o1, o2, o3, o4, o5, o6⟩ := ih hsort' hin' hcd' hRc' hRs' out hok
    refine ⟨o1, ?_, ?_, o4, o5, o6⟩
    · intro x hx
      exact o2 x ((mem_setInsert y x closure).mpr (Or.inr hx))
    · intro x hx
      rcases List.mem_cons.mp hx with rfl | hx
      · exact o2 x ((mem_setInsert x x closure).mpr (Or.inl rfl))
      · exact o3 x (List.mem_append.mpr (Or.inr hx))

/-- `compute_closure`, on success, returns exactly the reachable set:
sorted, duplicate-free, in-map, containing the roots, and closed under
in-map dependencies. -/
theorem compute_closure_ok (roots : List String) (m : FormulaMap) (closure : List String)
    (h : compute_closure roots m = .ok closure) :
    StrSorted closure ∧ closure.Nodup ∧
    (∀ x ∈ closure, (m.lookup x).isSome = true) ∧
    (∀ r ∈ roots, r ∈ closure) ∧
    (∀ n ∈ closure, ∀ d ∈ depsOf m n, (m.lookup d).isSome = true → d ∈ closure) ∧
    (∀ x, x ∈ closure ↔ Reach roots m x) := by
  obtain ⟨o1, o2, o3, o4, o5, o6⟩ := closureAux_ok roots m [] roots.reverse
    (by simp [StrSorted]) (by simp) (by simp) (by simp)
    (fun x hx => Reach.root (List.mem_reverse.mp hx)) closure h
  have hroots : ∀ r ∈ roots, r ∈ closure := fun r hr => o3 r (List.mem_reverse.mpr hr)
  refine ⟨o1, strSorted_nodup o1, o4, hroots, o5, fun x => ⟨o6 x, ?_⟩⟩
  intro hR
  induction hR with
  | root hr => exact hroots _ hr
  | dep hn hlook hd hsome ih =>
    refine o5 _ ih _ ?_ hsome
    rw [depsOf, hlook]
    exact (mem_sortStrings _ _).mpr hd

/-- The DFS fails only with `MissingFormula`, and only for a name on the
(original) stack whose lookup misses. -/
theorem closureAux_err (m : FormulaMap) :
    ∀ (closure stack : List String) (e : Error),
      closureAux m closure stack = .error e →
      ∃ name, e = .missingFormula name ∧ m.lookup name = none ∧ name ∈ stack := by
  intro closure stack
  induction closure, stack using closureAux.induct m with
  | case1 closure =>
    intro e h
    rw [closureAux] at h
    cases h
  | case2 closure y ys hmem ih =>
    intro e h
    rw [closureAux, if_pos hmem] at h
    obtain ⟨name, h1, h2, h3⟩ := ih e h
    exact ⟨name, h1, h2, List.mem_cons_of_mem _ h3⟩
  | case3 closure y ys hmem hlook =>
    intro e h
    rw [closureAux, if_neg hmem, hlook] at h
    cases h
    exact ⟨y, rfl, hlook, List.mem_cons_self _ _⟩
  | case4 closure y ys hmem closure' f hlook kept ih =>
    intro e h
    rw [closureAux, if_neg hmem, hlook] at h
    obtain ⟨name, h1, h2, h3⟩ := ih e h
    rcases List.mem_append.mp h3 with hk | hy
    · have hf := List.mem_filter.mp (List.mem_reverse.mp hk)
      have hs := (Bool.and_eq_true _ _ |>.mp hf.2).1
      rw [h2] at hs
      cases hs
    · exact ⟨name, h1, h2, List.mem_cons_of_mem _ hy⟩

/-- A missing root makes `compute_closure` fail with `MissingFormula`
naming some missing root. -/
theorem compute_closure_missing_root (roots : List String) (m : FormulaMap) (r : String)
    (hr : r ∈ roots) (hnone : m.lookup r = none) :
    ∃ r', r' ∈ roots ∧ m.lookup r' = none ∧
      compute_closure roots m = .error (.missingFormula r') := by
  cases hc : compute_closure roots m with
  | ok closure =>
    obtain ⟨_, _, hin, hroots, _, _⟩ := compute_closure_ok roots m closure hc
    have hsome := hin r (hroots r hr)
    rw [hnone] at hsome
    cases hsome
  | error e =>
    obtain ⟨name, h1, h2, h3⟩ := closureAux_err m [] roots.reverse e hc
    exact ⟨name, List.mem_reverse.mp h3, h2, by rw [h1]⟩

/-- The inner dependency loop of `build_graph`: it bumps `name`'s
indegree once per kept dependency occurrence, records `name` under each
kept dependency, and touches nothing else. -/
theorem graphEdges_spec (closure : List String) (name : String) (deps : List String) :
    ∀ (ind : List (String × Nat)) (adj : List (String × List String)),
      ((graphEdges closure name deps (ind, adj)).1.map Prod.fst = ind.map Prod.fst) ∧
      (∀ x, x ≠ name →
        (graphEdges closure name deps (ind, adj)).1.lookup x = ind.lookup x) ∧
      (∀ c, ind.lookup name = some c →
        (graphEdges closure name deps (ind, adj)).1.lookup name
          = some (c + (deps.filter (fun d => closure.contains d)).length)) ∧
      (∀ d x, x ∈ adjGet (graphEdges closure name deps (ind, adj)).2 d ↔
        ((x = name ∧ d ∈ deps ∧ closure.contains d = true) ∨ x ∈ adjGet adj d)) ∧
      ((∀ d, StrSorted (adjGet adj d)) →
        ∀ d, StrSorted (adjGet (graphEdges closure name deps (ind, adj)).2 d)) := by
  induction deps with
  | nil =>
    intro ind adj
    refine ⟨rfl, fun x _ => rfl, fun c hc => by simpa [graphEdges] using hc, ?_, fun h => h⟩
    intro d x
    simp [graphEdges]
  | cons dp ds ih =>
    intro ind adj
    by_cases hdp : closure.contains dp = true
    · have hmemdp : dp ∈ closure := (contains_iff closure dp).mp hdp
      have hstep : graphEdges closure name (dp :: ds) (ind, adj)
          = graphEdges closure name ds (bumpIndeg name ind, adjInsert dp name adj) := by
        simp [graphEdges, hmemdp]
      obtain ⟨i1, i2, i3, i4, i5⟩ := ih (bumpIndeg name ind) (adjInsert dp name adj)
      rw [hstep]
      refine ⟨by rw [i1, keys_bumpIndeg], ?_, ?_, ?_, ?_⟩
      · intro x hx
        rw [i2 x hx, lookup_bumpIndeg, if_neg hx]
      · intro c hc
        have hb : (bumpIndeg name ind).lookup name = some (c + 1) := by
          rw [lookup_bumpIndeg, if_pos rfl, hc]
          rfl
        rw [i3 (c + 1) hb]
        have hlen : ((dp :: ds).filter (fun d => closure.contains d)).length
            = (ds.filter (fun d => closure.contains d)).length + 1 := by
          simp [List.filter_cons, hmemdp]
        rw [hlen]
        congr 1
        omega
      · intro d x
        rw [i4 d x, adjGet_adjInsert]
        by_cases hdd : d = dp
        · subst hdd
          rw [if_pos rfl, mem_setInsert]
          constructor
          · intro h
            rcases h with ⟨rfl, _, _⟩ | h
            · exact Or.inl ⟨rfl, List.mem_cons_self _ _, hdp⟩
            · rcases h with rfl | h
              · exact Or.inl ⟨rfl, List.mem_cons_self _ _, hdp⟩
              · exact Or.inr h
          · intro h
            rcases h with ⟨rfl, _, _⟩ | h
            · exact Or.inr (Or.inl rfl)
            · exact Or.inr (Or.inr h)
        · rw [if_neg hdd]
          constructor
          · intro h
            rcases h with ⟨rfl, hmem, hc⟩ | h
            · exact Or.inl ⟨rfl, List.mem_cons_of_mem _ hmem, hc⟩
            · exact Or.inr h
          · intro h
            rcases h with ⟨rfl, hmem, hc⟩ | h
            · rcases List.mem_cons.mp hmem with rfl | hmem
              · exact absurd rfl hdd
              · exact Or.inl ⟨rfl, hmem, hc⟩
            · exact Or.inr h
      · intro hS d
        refine i5 ?_ d
        intro d'
        rw [adjGet_adjInsert]
        by_cases hdd : d' = dp
        · rw [if_pos hdd]
          exact strSorted_setInsert _ _ (hS dp)
        · rw [if_neg hdd]
          exact hS d'
    · have hmemdp : dp ∉ closure := fun h => hdp ((contains_iff closure dp).mpr h)
      have hstep : graphEdges closure name (dp :: ds) (ind, adj)
          = graphEdges closure name ds (ind, adj) := by
        simp [graphEdges, hmemdp]
      obtain ⟨i1, i2, i3, i4, i5⟩ := ih ind adj
      rw [hstep]
      refine ⟨i1, i2, ?_, ?_, i5⟩
      · intro c hc
        have hlen : ((dp :: ds).filter (fun d => closure.contains d)).length
            = (ds.filter (fun d => closure.contains d)).length := by
          simp [List.filter_cons, hmemdp]
        rw [hlen]
        exact i3 c hc
      · intro d x
        rw [i4 d x]
        constructor
        · intro h
          rcases h with ⟨rfl, hmem, hc⟩ | h
          · exact Or.inl ⟨rfl, List.mem_cons_of_mem _ hmem, hc⟩
          · exact Or.inr h
        · intro h
          rcases h with ⟨rfl, hmem, hc⟩ | h
          · rcases List.mem_cons.mp hmem with rfl | hmem
            · exact absurd hc hdp
            · exact Or.inl ⟨rfl, hmem, hc⟩
          · exact Or.inr h

/-- Looking up any member of a zero-initialized indegree map yields 0. -/
theorem lookup_map_zero (l : List String) (n : String) (h : n ∈ l) :
    (l.map (fun x => (x, (0 : Nat)))).lookup n = some 0 := by
  induction l with
  | nil => cases h
  | cons x xs ih =>
    by_cases hx : n = x
    · have hbeq : (n == x) = true := beq_iff_eq.mpr hx
      simp [List.lookup, hbeq]
    · have hbeq : (n == x) = false := beq_eq_false_iff_ne.mpr hx
      have hmem : n ∈ xs := by
        rcases List.mem_cons.mp h with h | h
        · exact absurd h hx
        · exact h
      simp [List.lookup, hbeq, ih hmem]

/-- The outer loop of `build_graph`, carried over any suffix: under the
processed-prefix invariant it succeeds and produces the exact indegree
counts and adjacency sets. -/
theorem buildGraphGo_spec (m : FormulaMap) (closure : List String) (hnd : closure.Nodup)
    (hin : ∀ n ∈ closure, (m.lookup n).isSome = true) :
    ∀ (todo done : List String) (ind : List (String × Nat))
      (adj : List (String × List String)),
      closure = done ++ todo →
      ind.map Prod.fst = closure →
      (∀ n ∈ closure, ind.lookup n
        = some (if n ∈ done then depCount m closure n else 0)) →
      (∀ d x, x ∈ adjGet adj d ↔ (x ∈ done ∧ edgeB m closure d x = true)) →
      (∀ d, StrSorted (adjGet adj d)) →
      ∃ indF adjF, buildGraphGo m closure todo (ind, adj) = .ok (indF, adjF) ∧
        indF.map Prod.fst = closure ∧
        (∀ n ∈ closure, indF.lookup n = some (depCount m closure n)) ∧
        (∀ d x, x ∈ adjGet adjF d ↔ edgeB m closure d x = true) ∧
        (∀ d, StrSorted (adjGet adjF d)) := by
  intro todo
  induction todo with
  | nil =>
    intro done ind adj hsplit hkeys hcounts hadj hsorted
    refine ⟨ind, adj, rfl, hkeys, ?_, ?_, hsorted⟩
    · intro n hn
      have := hcounts n hn
      rw [if_pos (by simpa [hsplit] using hn)] at this
      exact this
    · intro d x
      rw [hadj d x]
      constructor
      · exact fun h => h.2
      · intro h
        refine ⟨?_, h⟩
        have hx : closure.contains x = true := by
          rw [edgeB] at h
          exact ((Bool.and_eq_true _ _).mp ((Bool.and_eq_true _ _).mp h).1).2
        simpa [hsplit] using (contains_iff _ _).mp hx
  | cons name rest ih =>
    intro done ind adj hsplit hkeys hcounts hadj hsorted
    have hnameC : name ∈ closure := by
      rw [hsplit]
      exact List.mem_append.mpr (Or.inr (List.mem_cons_self _ _))
    obtain ⟨f, hf⟩ := Option.isSome_iff_exists.mp (hin name hnameC)
    have hnamedone : name ∉ done := by
      intro hc
      rw [hsplit] at hnd
      have := (List.nodup_append.mp hnd).2.2
      exact this hc (List.mem_cons_self _ _)
    obtain ⟨g1, g2, g3, g4, g5⟩ :=
      graphEdges_spec closure name (sortStrings f.dependencies) ind adj
    have hdeps : depsOf m name = sortStrings f.dependencies := by
      rw [depsOf, hf]
    have hstep : buildGraphGo m closure (name :: rest) (ind, adj)
        = buildGraphGo m closure rest
            (graphEdges closure name (sortStrings f.dependencies) (ind, adj)) := by
      rw [buildGraphGo, hf]
    set acc' := graphEdges closure name (sortStrings f.dependencies) (ind, adj) with hacc
    have hkeys' : acc'.1.map Prod.fst = closure := by rw [g1, hkeys]
    have hcounts' : ∀ n ∈ closure, acc'.1.lookup n
        = some (if n ∈ done ++ [name] then depCount m closure n else 0) := by
      intro n hn
      by_cases hnn : n = name
      · subst hnn
        have h0 := hcounts n hn
        rw [if_neg hnamedone] at h0
        rw [g3 0 h0]
        rw [if_pos (List.mem_append.mpr (Or.inr (List.mem_cons_self _ _)))]
        rw [depCount, hdeps]
        norm_num
      · rw [g2 n hnn, hcounts n hn]
        congr 1
        by_cases hd : n ∈ done
        · rw [if_pos hd, if_pos (List.mem_append.mpr (Or.inl hd))]
        · rw [if_neg hd, if_neg (by
            intro hc
            rcases List.mem_append.mp hc with hc | hc
            · exact hd hc
            · rcases List.mem_cons.mp hc with hc | hc
              · exact hnn hc
              · cases hc)]
    have hadj' : ∀ d x, x ∈ adjGet acc'.2 d ↔
        (x ∈ done ++ [name] ∧ edgeB m closure d x = true) := by
      intro d x
      rw [g4 d x, hadj d x]
      constructor
      · intro h
        rcases h with ⟨rfl, hmem, hc⟩ | ⟨hdone, hedge⟩
        · refine ⟨List.mem_append.mpr (Or.inr (List.mem_cons_self _ _)), ?_⟩
          rw [edgeB, Bool.and_eq_true, Bool.and_eq_true]
          refine ⟨⟨hc, (contains_iff _ _).mpr hnameC⟩, ?_⟩
          rw [hdeps]
          exact (contains_iff _ _).mpr hmem
        · exact ⟨List.mem_append.mpr (Or.inl hdone), hedge⟩
      · intro ⟨hmem, hedge⟩
        rcases List.mem_append.mp hmem with hd | hx
        · exact Or.inr ⟨hd, hedge⟩
        · rcases List.mem_cons.mp hx with rfl | hc
          · refine Or.inl ⟨rfl, ?_, ?_⟩
            · rw [edgeB, Bool.and_eq_true, Bool.and_eq_true] at hedge
              have := hedge.2
              rw [hdeps] at this
              exact (contains_iff _ _).mp this
            · rw [edgeB, Bool.and_eq_true, Bool.and_eq_true] at hedge
              exact hedge.1.1
          · cases hc
    obtain ⟨indF, adjF, hgo, p1, p2, p3, p4⟩ := ih (done ++ [name]) acc'.1 acc'.2
      (by rw [hsplit, List.append_assoc, List.singleton_append])
      hkeys' hcounts' hadj' (g5 hsorted)
    refine ⟨indF, adjF, ?_, p1, p2, p3, p4⟩
    rw [hstep]
    exact hgo

/-- `build_graph`, run on a closure of in-map names, succeeds and
returns the dependency-occurrence indegrees together with the exact
(reverse) adjacency sets. -/
theorem build_graph_ok (m : FormulaMap) (closure : List String) (hnd : closure.Nodup)
    (hin : ∀ n ∈ closure, (m.lookup n).isSome = true) :
    ∃ ind adj, build_graph closure m = .ok (ind, adj) ∧
      ind.map Prod.fst = closure ∧
      (∀ n ∈ closure, ind.lookup n = some (depCount m closure n)) ∧
      (∀ d x, x ∈ adjGet adj d ↔ edgeB m closure d x = true) ∧
      (∀ d, StrSorted (adjGet adj d)) := by
  have hmapfst : ∀ l : List String, (l.map (fun n => (n, (0 : Nat)))).map Prod.fst = l := by
    intro l
    induction l with
    | nil => rfl
    | cons x xs ihl => simp [ihl]
  obtain ⟨indF, adjF, hgo, p1, p2, p3, p4⟩ := buildGraphGo_spec m closure hnd hin
    closure [] (closure.map (fun n => (n, 0))) []
    (by simp) (hmapfst closure)
    (fun n hn => by simp [lookup_map_zero closure n hn])
    (by intro d x; simp [adjGet, List.lookup]) (by intro d; simp [adjGet, List.lookup, StrSorted])
  exact ⟨indF, adjF, hgo, p1, p2, p3, p4⟩

/-- The counting heart of Kahn's algorithm: once the edges into `n`
recorded from `ordered` exhaust `n`'s dependency occurrences, every
in-closure dependency of `n` lies in `ordered`. -/
theorem parents_all_ordered (m : FormulaMap) (closure ordered : List String) (n : String)
    (hclnd : closure.Nodup) (hordnd : ordered.Nodup)
    (hlen : (ordered.filter (fun p => edgeB m closure p n)).length = depCount m closure n) :
    ∀ p, edgeB m closure p n = true → p ∈ ordered := by
  intro p hp
  have hmemP : ∀ q, edgeB m closure q n = true → q ∈ closure := by
    intro q hq
    rw [edgeB, Bool.and_eq_true, Bool.and_eq_true] at hq
    exact (contains_iff _ _).mp hq.1.1
  have hFnd : (ordered.filter (fun q => edgeB m closure q n)).Nodup := hordnd.filter _
  have hPnd : (closure.filter (fun q => edgeB m closure q n)).Nodup := hclnd.filter _
  have hPD : (closure.filter (fun q => edgeB m closure q n))
      ⊆ (depsOf m n).filter (fun d => closure.contains d) := by
    intro q hq
    obtain ⟨hqc, hqe⟩ := List.mem_filter.mp hq
    rw [edgeB, Bool.and_eq_true, Bool.and_eq_true] at hqe
    refine List.mem_filter.mpr ⟨(contains_iff _ _).mp hqe.2, hqe.1.1⟩
  have hPlen : (closure.filter (fun q => edgeB m closure q n)).length
      ≤ depCount m closure n := nodup_subset_length hPnd hPD
  have hFP : (ordered.filter (fun q => edgeB m closure q n)).toFinset
      ⊆ (closure.filter (fun q => edgeB m closure q n)).toFinset := by
    intro q hq
    rw [List.mem_toFinset] at hq ⊢
    obtain ⟨hqo, hqe⟩ := List.mem_filter.mp hq
    exact List.mem_filter.mpr ⟨hmemP q hqe, hqe⟩
  have hcards : (closure.filter (fun q => edgeB m closure q n)).toFinset.card
      ≤ (ordered.filter (fun q => edgeB m closure q n)).toFinset.card := by
    rw [List.toFinset_card_of_nodup hFnd, List.toFinset_card_of_nodup hPnd, hlen]
    exact hPlen
  have heq := Finset.eq_of_subset_of_card_le hFP hcards
  have hpP : p ∈ (closure.filter (fun q => edgeB m closure q n)).toFinset := by
    rw [List.mem_toFinset]
    exact List.mem_filter.mpr ⟨hmemP p hp, hp⟩
  rw [← heq, List.mem_toFinset] at hpP
  exact (List.mem_filter.mp hpP).1

/-- What one pass of the child loop does: each (distinct, positive)
child's count drops by one, children hitting zero join the ready set,
and nothing else moves. -/
theorem processChildren_spec (cs : List String) :
    ∀ (ind : List (String × Nat)) (ready : List String),
      cs.Nodup →
      (∀ c ∈ cs, ∃ k, ind.lookup c = some (k + 1)) →
      ((processChildren cs ind ready).1.map Prod.fst = ind.map Prod.fst) ∧
      (∀ x, (processChildren cs ind ready).1.lookup x
        = if x ∈ cs then (ind.lookup x).map (fun c => c - 1) else ind.lookup x) ∧
      (∀ x, x ∈ (processChildren cs ind ready).2 ↔
        x ∈ ready ∨ (x ∈ cs ∧ ind.lookup x = some 1)) ∧
      (StrSorted ready → StrSorted (processChildren cs ind ready).2) := by
  induction cs with
  | nil =>
    intro ind ready _ _
    refine ⟨rfl, ?_, ?_, fun h => h⟩
    · intro x
      simp [processChildren]
    · intro x
      simp [processChildren]
  | cons c cs' ih =>
    intro ind ready hnd hpos
    obtain ⟨k, hk⟩ := hpos c (List.mem_cons_self _ _)
    have hcnotin : c ∉ cs' := (List.nodup_cons.mp hnd).1
    have hnd' : cs'.Nodup := (List.nodup_cons.mp hnd).2
    have hstep : processChildren (c :: cs') ind ready
        = processChildren cs' (setIndeg c k ind)
            (if k = 0 then setInsert c ready else ready) := by
      rw [processChildren, hk]
      simp
    have hpos' : ∀ x ∈ cs', ∃ k', (setIndeg c k ind).lookup x = some (k' + 1) := by
      intro x hx
      rw [lookup_setIndeg, if_neg (by rintro rfl; exact hcnotin hx)]
      exact hpos x (List.mem_cons_of_mem _ hx)
    obtain ⟨i1, i2, i3, i4⟩ := ih (setIndeg c k ind)
      (if k = 0 then setInsert c ready else ready) hnd' hpos'
    rw [hstep]
    refine ⟨by rw [i1, keys_setIndeg], ?_, ?_, ?_⟩
    · intro x
      by_cases hxc : x = c
      · subst hxc
        rw [i2 x, if_neg hcnotin, if_pos (List.mem_cons_self _ _),
          lookup_setIndeg, if_pos rfl, hk]
        rfl
      · rw [i2 x]
        by_cases hxcs : x ∈ cs'
        · rw [if_pos hxcs, if_pos (List.mem_cons_of_mem _ hxcs),
            lookup_setIndeg, if_neg hxc]
        · rw [if_neg hxcs, if_neg (by
            intro hc
            rcases List.mem_cons.mp hc with hc | hc
            · exact hxc hc
            · exact hxcs hc), lookup_setIndeg, if_neg hxc]
    · intro x
      rw [i3 x]
      by_cases hxc : x = c
      · subst hxc
        have hxlook : (setIndeg x k ind).lookup x = some k := by
          rw [lookup_setIndeg, if_pos rfl, hk]
          rfl
        constructor
        · intro h
          rcases h with h | ⟨hmem, _⟩
          · by_cases hk0 : k = 0
            · rw [if_pos hk0] at h
              rcases (mem_setInsert x x ready).mp h with _ | h
              · exact Or.inr ⟨List.mem_cons_self _ _, by rw [hk, hk0]⟩
              · exact Or.inl h
            · rw [if_neg hk0] at h
              exact Or.inl h
          · exact absurd hmem hcnotin
        · intro h
          rcases h with h | ⟨hmem, hone⟩
          · by_cases hk0 : k = 0
            · rw [if_pos hk0]
              exact Or.inl ((mem_setInsert x x ready).mpr (Or.inr h))
            · rw [if_neg hk0]
              exact Or.inl h
          · have : k + 1 = 1 := by
              rw [hk] at hone
              exact Option.some.inj hone
            have hk0 : k = 0 := by omega
            rw [if_pos hk0]
            exact Or.inl ((mem_setInsert x x ready).mpr (Or.inl rfl))
      · constructor
        · intro h
          rcases h with h | ⟨hmem, hone⟩
          · by_cases hk0 : k = 0
            · rw [if_pos hk0] at h
              rcases (mem_setInsert c x ready).mp h with hc | h
              · exact absurd hc hxc
              · exact Or.inl h
            · rw [if_neg hk0] at h
              exact Or.inl h
          · rw [lookup_setIndeg, if_neg hxc] at hone
            exact Or.inr ⟨List.mem_cons_of_mem _ hmem, hone⟩
        · intro h
          rcases h with h | ⟨hmem, hone⟩
          · refine Or.inl ?_
            by_cases hk0 : k = 0
            · rw [if_pos hk0]
              exact (mem_setInsert c x ready).mpr (Or.inr h)
            · rw [if_neg hk0]
              exact h
          · refine Or.inr ⟨?_, ?_⟩
            · rcases List.mem_cons.mp hmem with hc | hmem
              · exact absurd hc hxc
              · exact hmem
            · rw [lookup_setIndeg, if_neg hxc]
              exact hone
    · intro hS
      refine i4 ?_
      by_cases hk0 : k = 0
      · rw [if_pos hk0]
        exact strSorted_setInsert c ready hS
      · rw [if_neg hk0]
        exact hS

/-- One iteration of the Kahn loop preserves the invariant. -/
theorem kahnStep (m : FormulaMap) (closure : List String)
    (adj : List (String × List String)) (hclnd : closure.Nodup)
    (hadj : ∀ d x, x ∈ adjGet adj d ↔ edgeB m closure d x = true)
    (hadjS : ∀ d, StrSorted (adjGet adj d))
    (name : String) (rest : List String) (ind : List (String × Nat)) (ordered : List String)
    (inv : KahnInv m closure (name :: rest) ind ordered) :
    KahnInv m closure (processChildren (adjGet adj name) ind rest).2
      (processChildren (adjGet adj name) ind rest).1 (ordered ++ [name]) := by
  obtain ⟨hnameC, hnameOrd, hname0⟩ := (inv.rdyChar name).mp (List.mem_cons_self _ _)
  have hzero_parents : ∀ nn, nn ∈ closure → ind.lookup nn = some 0 →
      ∀ p, edgeB m closure p nn = true → p ∈ ordered := by
    intro nn hnn h0 p hp
    obtain ⟨c, hlook, hsum⟩ := inv.counts nn hnn
    have hc0 : c = 0 := by
      rw [h0] at hlook
      exact (Option.some.inj hlook).symm
    refine parents_all_ordered m closure ordered nn hclnd inv.ordNodup ?_ p hp
    omega
  have hparents : ∀ p, edgeB m closure p name = true → p ∈ ordered :=
    hzero_parents name hnameC hname0
  have hchildC : ∀ c ∈ adjGet adj name, c ∈ closure := by
    intro c hc
    have hedge := (hadj name c).mp hc
    rw [edgeB, Bool.and_eq_true, Bool.and_eq_true] at hedge
    exact (contains_iff _ _).mp hedge.1.2
  have hpos : ∀ c ∈ adjGet adj name, ∃ k, ind.lookup c = some (k + 1) := by
    intro c hc
    have hedge := (hadj name c).mp hc
    obtain ⟨cc, hcclook, hccsum⟩ := inv.counts c (hchildC c hc)
    cases cc with
    | zero => exact absurd (hzero_parents c (hchildC c hc) hcclook name hedge) hnameOrd
    | succ k => exact ⟨k, hcclook⟩
  have hcsnd : (adjGet adj name).Nodup := strSorted_nodup (hadjS name)
  obtain ⟨p1, p2, p3, p4⟩ := processChildren_spec (adjGet adj name) ind rest hcsnd hpos
  have hnamecs : name ∉ adjGet adj name := by
    intro hc
    obtain ⟨k, hk⟩ := hpos name hc
    rw [hname0] at hk
    have := Option.some.inj hk
    omega
  have hrestnd : name ∉ rest := (List.nodup_cons.mp (strSorted_nodup inv.rdySorted)).1
  refine ⟨?_, ?_, ?_, ?_, ?_, ?_, ?_, ?_, ?_⟩
  · -- ordNodup
    rw [List.nodup_append]
    exact ⟨inv.ordNodup, List.nodup_singleton _,
      fun a ha => by
        simp only [List.mem_singleton]
        intro hc
        subst hc
        exact hnameOrd ha⟩
  · -- ordSub
    intro x hx
    rcases List.mem_append.mp hx with hx | hx
    · exact inv.ordSub x hx
    · rcases List.mem_singleton.mp hx with rfl
      exact hnameC
  · -- rdySorted
    exact p4 (List.pairwise_cons.mp inv.rdySorted).2
  · -- keys
    rw [p1]
    exact inv.keys
  · -- counts
    intro n hn
    obtain ⟨c, hlook, hsum⟩ := inv.counts n hn
    by_cases hmemcs : n ∈ adjGet adj name
    · have hedge : edgeB m closure name n = true := (hadj name n).mp hmemcs
      obtain ⟨k, hk⟩ := hpos n hmemcs
      have hck : c = k + 1 := by
        rw [hk] at hlook
        exact (Option.some.inj hlook).symm
      refine ⟨c - 1, ?_, ?_⟩
      · rw [p2 n, if_pos hmemcs, hlook]
        rfl
      · rw [List.filter_append]
        have hfone : List.filter (fun p => edgeB m closure p n) [name] = [name] := by
          simp [List.filter_cons, hedge]
        rw [hfone, List.length_append, List.length_singleton]
        omega
    · have hnoedge : edgeB m closure name n = false := by
        rw [← Bool.not_eq_true]
        intro hc
        exact hmemcs ((hadj name n).mpr hc)
      refine ⟨c, ?_, ?_⟩
      · rw [p2 n, if_neg hmemcs, hlook]
      · rw [List.filter_append]
        have hfzero : List.filter (fun p => edgeB m closure p n) [name] = [] := by
          simp [List.filter_cons, hnoedge]
        rw [hfzero, List.append_nil]
        exact hsum
  · -- rdyChar
    intro x
    rw [p3 x]
    constructor
    · intro h
      rcases h with hx | ⟨hxcs, hone⟩
      · obtain ⟨xC, xOrd, x0⟩ := (inv.rdyChar x).mp (List.mem_cons_of_mem _ hx)
        have hxname : x ≠ name := fun hc => hrestnd (hc ▸ hx)
        have hxcs : x ∉ adjGet adj name := by
          intro hc
          obtain ⟨k, hk⟩ := hpos x hc
          rw [x0] at hk
          have := Option.some.inj hk
          omega
        refine ⟨xC, ?_, ?_⟩
        · intro hc
          rcases List.mem_append.mp hc with hc | hc
          · exact xOrd hc
          · exact hxname (List.mem_singleton.mp hc)
        · rw [p2 x, if_neg hxcs]
          exact x0
      · have xC := hchildC x hxcs
        refine ⟨xC, ?_, ?_⟩
        · intro hc
          rcases List.mem_append.mp hc with hc | hc
          · have := inv.ordZero x hc
            rw [hone] at this
            have := Option.some.inj this
            omega
          · rcases List.mem_singleton.mp hc with rfl
            rw [hname0] at hone
            have := Option.some.inj hone
            omega
        · rw [p2 x, if_pos hxcs, hone]
          rfl
    · intro ⟨xC, xOrd, x0⟩
      have hxname : x ≠ name := by
        intro hc
        exact xOrd (List.mem_append.mpr (Or.inr (hc ▸ List.mem_singleton_self name)))
      by_cases hxcs : x ∈ adjGet adj name
      · obtain ⟨k, hk⟩ := hpos x hxcs
        rw [p2 x, if_pos hxcs, hk] at x0
        have hkval : k + 1 - 1 = 0 := Option.some.inj x0
        refine Or.inr ⟨hxcs, ?_⟩
        rw [hk]
        congr 1
        omega
      · rw [p2 x, if_neg hxcs] at x0
        have hx : x ∈ name :: rest := (inv.rdyChar x).mpr
          ⟨xC, fun hc => xOrd (List.mem_append.mpr (Or.inl hc)), x0⟩
        rcases List.mem_cons.mp hx with hc | hx
        · exact absurd hc hxname
        · exact Or.inl hx
  · -- ordZero
    intro n hn
    rcases List.mem_append.mp hn with hn | hn
    · have h0 := inv.ordZero n hn
      have hncs : n ∉ adjGet adj name := by
        intro hc
        obtain ⟨k, hk⟩ := hpos n hc
        rw [h0] at hk
        have := Option.some.inj hk
        omega
      rw [p2 n, if_neg hncs]
      exact h0
    · rcases List.mem_singleton.mp hn with rfl
      rw [p2 n, if_neg hnamecs]
      exact hname0
  · -- ordNoSelf
    intro n hn
    rcases List.mem_append.mp hn with hn | hn
    · exact inv.ordNoSelf n hn
    · rcases List.mem_singleton.mp hn with rfl
      rw [← Bool.not_eq_true]
      intro hc
      exact hnameOrd (hparents n hc)
  · -- ordPairwise
    rw [List.pairwise_append]
    refine ⟨inv.ordPairwise, List.pairwise_singleton _ _, ?_⟩
    intro a ha b hb
    rcases List.mem_singleton.mp hb with rfl
    rw [← Bool.not_eq_true]
    intro hc
    exact hnameOrd (hzero_parents a (inv.ordSub a ha) (inv.ordZero a ha) b hc)

/-- The Kahn loop carries its invariant to the final state. -/
theorem topoLoop_inv (m : FormulaMap) (closure : List String)
    (adj : List (String × List String)) (hclnd : closure.Nodup)
    (hadj : ∀ d x, x ∈ adjGet adj d ↔ edgeB m closure d x = true)
    (hadjS : ∀ d, StrSorted (adjGet adj d)) :
    ∀ (ready : List String) (ind : List (String × Nat)) (ordered : List String),
      KahnInv m closure ready ind ordered →
      KahnInv m closure [] (topoLoop adj ready ind ordered).2
        (topoLoop adj ready ind ordered).1 := by
  intro ready ind ordered
  induction ready, ind, ordered using topoLoop.induct adj with
  | case1 ind ordered =>
    intro inv
    rw [topoLoop]
    exact inv
  | case2 c cs ind ordered pc ih =>
    intro inv
    rw [topoLoop]
    exact ih (kahnStep m closure adj hclnd hadj hadjS c cs ind ordered inv)

/-- In a map with duplicate-free keys, any stored pair is the lookup
result. -/
theorem lookup_eq_of_mem_nodup {β : Type} {l : List (String × β)}
    (hnd : (l.map Prod.fst).Nodup) {k : String} {v : β} (h : (k, v) ∈ l) :
    l.lookup k = some v := by
  induction l with
  | nil => cases h
  | cons p rest ih =>
    obtain ⟨k', v'⟩ := p
    rcases List.mem_cons.mp h with heq | hmem
    · injection heq with h1 h2
      subst h1
      subst h2
      simp [List.lookup]
    · have hk' : k ≠ k' := by
        intro hc
        subst hc
        have : k ∈ rest.map Prod.fst := List.mem_map.mpr ⟨(k, v), hmem, rfl⟩
        exact (List.nodup_cons.mp (by simpa using hnd)).1 this
      have hbeq : (k == k') = false := beq_eq_false_iff_ne.mpr hk'
      have hnd' : (rest.map Prod.fst).Nodup := by
        simp only [List.map_cons] at hnd
        exact (List.nodup_cons.mp hnd).2
      simp [List.lookup, hbeq, ih hnd' hmem]

/-- A successful lookup is a stored pair. -/
theorem mem_of_lookup {β : Type} {l : List (String × β)} {k : String} {v : β}
    (h : l.lookup k = some v) : (k, v) ∈ l := by
  induction l with
  | nil => cases h
  | cons p rest ih =>
    obtain ⟨k', v'⟩ := p
    cases hbeq : (k == k') with
    | true =>
      have hk : k = k' := eq_of_beq hbeq
      simp only [List.lookup, hbeq] at h
      subst hk
      cases h
      exact List.mem_cons_self _ _
    | false =>
      simp only [List.lookup, hbeq] at h
      exact List.mem_cons_of_mem _ (ih h)

/-- C1: a successful `resolve_closure` emits a duplicate-free
permutation of the transitive dependency closure of the roots
(restricted to names present in the map), in which every in-map
dependency of every node appears strictly earlier than the node. -/
theorem resolve_closure_spec (roots : List String) (m : FormulaMap) (out : List String)
    (hok : resolve_closure roots m = .ok out) :
    out.Nodup ∧
    (∀ x, x ∈ out ↔ Reach roots m x) ∧
    (∀ n ∈ out, ∀ f, m.lookup n = some f →
      ∀ d ∈ f.dependencies, (m.lookup d).isSome = true →
        out.indexOf d < out.indexOf n) := by
  cases hcc : compute_closure roots m with
  | error e =>
    rw [resolve_closure, hcc] at hok
    cases hok
  | ok closure =>
    obtain ⟨hsort, hnd, hin, hroots, hclosed, hreach⟩ := compute_closure_ok roots m closure hcc
    obtain ⟨ind, adj, hbg, hkeys, hcounts, hadj, hadjS⟩ := build_graph_ok m closure hnd hin
    simp only [resolve_closure, hcc, hbg] at hok
    set ready0 := (ind.filter (fun p => p.2 = 0)).map (fun p => p.1) with hr0
    have hkeysnd : (ind.map Prod.fst).Nodup := by
      rw [hkeys]
      exact hnd
    have inv0 : KahnInv m closure ready0 ind [] := by
      refine ⟨List.nodup_nil, by simp, ?_, hkeys, ?_, ?_, by simp, by simp,
        List.Pairwise.nil⟩
      · have hsubl : ready0.Sublist closure := by
          rw [hr0, ← hkeys]
          exact (List.filter_sublist ind).map _
        exact hsort.sublist hsubl
      · intro n hn
        exact ⟨depCount m closure n, hcounts n hn, by simp⟩
      · intro n
        constructor
        · intro h
          obtain ⟨p, hmemf, hp1⟩ := List.mem_map.mp h
          obtain ⟨k, v⟩ := p
          simp only at hp1
          subst hp1
          obtain ⟨hmem, hv⟩ := List.mem_filter.mp hmemf
          have hv0 : v = 0 := of_decide_eq_true hv
          subst hv0
          refine ⟨?_, by simp, lookup_eq_of_mem_nodup hkeysnd hmem⟩
          rw [← hkeys]
          exact List.mem_map.mpr ⟨(k, 0), hmem, rfl⟩
        · intro ⟨hnC, _, hlook⟩
          exact List.mem_map.mpr ⟨(n, 0),
            List.mem_filter.mpr ⟨mem_of_lookup hlook, by simp⟩, rfl⟩
    have hfinal := topoLoop_inv m closure adj hnd hadj hadjS ready0 ind [] inv0
    split_ifs at hok with hlen
    · cases hok
      have hnodup := hfinal.ordNodup
      have hsub : (topoLoop adj ready0 ind []).1 ⊆ closure :=
        fun x hx => hfinal.ordSub x hx
      have hperm : (topoLoop adj ready0 ind []).1.Perm closure :=
        (hnodup.subperm hsub).perm_of_length_le (le_of_eq hlen.symm)
      refine ⟨hnodup, fun x => (hperm.mem_iff).trans (hreach x), ?_⟩
      intro n hn f hf d hd hds
      have hnC : n ∈ closure := hfinal.ordSub n hn
      have hdDeps : d ∈ depsOf m n := by
        rw [depsOf, hf]
        exact (mem_sortStrings _ _).mpr hd
      have hdC : d ∈ closure := hclosed n hnC d hdDeps hds
      have hedge : edgeB m closure d n = true := by
        rw [edgeB, Bool.and_eq_true, Bool.and_eq_true]
        exact ⟨⟨(contains_iff _ _).mpr hdC, (contains_iff _ _).mpr hnC⟩,
          (contains_iff _ _).mpr hdDeps⟩
      have hdout : d ∈ (topoLoop adj ready0 ind []).1 := hperm.mem_iff.mpr hdC
      have hdn : d ≠ n := by
        rintro rfl
        rw [hfinal.ordNoSelf d hn] at hedge
        cases hedge
      have hidxn := List.indexOf_lt_length.mpr hn
      have hidxd := List.indexOf_lt_length.mpr hdout
      by_contra hcon
      have hne : (topoLoop adj ready0 ind []).1.indexOf d
          ≠ (topoLoop adj ready0 ind []).1.indexOf n :=
        fun hc => hdn ((List.indexOf_inj hdout hn).mp hc)
      have hlt : (topoLoop adj ready0 ind []).1.indexOf n
          < (topoLoop adj ready0 ind []).1.indexOf d :=
        Nat.lt_of_le_of_ne (Nat.not_lt.mp hcon) (fun h => hne h.symm)
      have hpair := List.pairwise_iff_getElem.mp hfinal.ordPairwise
        ((topoLoop adj ready0 ind []).1.indexOf n)
        ((topoLoop adj ready0 ind []).1.indexOf d) hidxn hidxd hlt
      rw [List.getElem_indexOf hidxd, List.getElem_indexOf hidxn] at hpair
      exact Bool.noConfusion (hedge.symm.trans hpair)

/-- A concrete formula with the given name and dependencies (all other
fields inert), for evaluating the resolver at the maps the `resolve.rs`
unit tests use. -/
def demoF (n : String) (deps : List String) : Formula :=
  ⟨n, "1.0", deps, [], 0, 0, .no⟩

/-- The dependency map of the `test_diamond` unit test in `resolve.rs`:
foo → {baz, bar}, bar → {qux}, baz → {qux}, qux → {}. -/
def demoMap : FormulaMap :=
  [("bar", demoF "bar" ["qux"]),
   ("baz", demoF "baz" ["qux"]),
   ("foo", demoF "foo" ["baz", "bar"]),
   ("qux", demoF "qux" [])]

/-- C1 witness at the diamond map: `resolve_closure ["foo"]` succeeds with
`["qux", "bar", "baz", "foo"]`, which is duplicate-free, is exactly the
reachable set, and lists every in-map dependency before its dependent. -/
theorem resolve_closure_spec_witness :
    resolve_closure ["foo"] demoMap = .ok ["qux", "bar", "baz", "foo"] ∧
    (["qux", "bar", "baz", "foo"] : List String).Nodup ∧
    (∀ x, x ∈ (["qux", "bar", "baz", "foo"] : List String) ↔
      Reach ["foo"] demoMap x) ∧
    (∀ n ∈ (["qux", "bar", "baz", "foo"] : List String), ∀ f,
      List.lookup n demoMap = some f →
      ∀ d ∈ f.dependencies, (List.lookup d demoMap).isSome = true →
        (["qux", "bar", "baz", "foo"] : List String).indexOf d
          < (["qux", "bar", "baz", "foo"] : List String).indexOf n) := by
  have hok : resolve_closure ["foo"] demoMap = .ok ["qux", "bar", "baz", "foo"] := by
    simp [resolve_closure, compute_closure, closureAux, build_graph, buildGraphGo,
      graphEdges, bumpIndeg, adjInsert, topoLoop, processChildren, setIndeg,
      sortStrings, sortInsert, setInsert, sLt, clLt, demoMap, demoF,
      List.lookup, sumIndeg]
  obtain ⟨h1, h2, h3⟩ :=
    resolve_closure_spec ["foo"] demoMap ["qux", "bar", "baz", "foo"] hok
  exact ⟨hok, h1, h2, h3⟩

/-- C10 (amended): if some root is absent from the map,
`resolve_closure` fails with `MissingFormula` naming SOME absent root —
the latest-popped one, not necessarily each absent root — and
conversely every `MissingFormula` error names an absent root: an absent
dependency is filtered out before it is pushed (resolve.rs line 74) and
never causes this error. -/
theorem resolver_missing_root_spec (roots : List String) (m : FormulaMap) :
    ((∃ r, r ∈ roots ∧ m.lookup r = none) →
      ∃ r', r' ∈ roots ∧ m.lookup r' = none ∧
        resolve_closure roots m = .error (.missingFormula r')) ∧
    (∀ x, resolve_closure roots m = .error (.missingFormula x) →
      x ∈ roots ∧ m.lookup x = none) := by
  constructor
  · rintro ⟨r, hr, hnone⟩
    obtain ⟨r', hr', hnone', hcc⟩ := compute_closure_missing_root roots m r hr hnone
    refine ⟨r', hr', hnone', ?_⟩
    simp only [resolve_closure, hcc]
  · intro x hx
    cases hcc : compute_closure roots m with
    | error e =>
      simp only [resolve_closure, hcc] at hx
      obtain ⟨name, he, hnone, hmem⟩ := closureAux_err m [] roots.reverse e hcc
      injection hx with hx1
      rw [he] at hx1
      injection hx1 with hx2
      subst hx2
      exact ⟨List.mem_reverse.mp hmem, hnone⟩
    | ok closure =>
      obtain ⟨_, hnd, hin, _, _, _⟩ := compute_closure_ok roots m closure hcc
      obtain ⟨ind, adj, hbg, _, _, _, _⟩ := build_graph_ok m closure hnd hin
      simp only [resolve_closure, hcc, hbg] at hx
      split_ifs at hx with hlen
      cases hx

/-- C10 counterexample: with roots `["a", "b"]` and the empty map both
roots are absent, yet the error names only `"b"` (popped first from the
end of the root vector), so the run does NOT fail with
`MissingFormula "a"` even though `"a"` is an absent root. -/
theorem resolver_missing_root_counterexample :
    ("a" : String) ∈ ["a", "b"] ∧
    List.lookup ("a" : String) ([] : FormulaMap) = none ∧
    resolve_closure ["a", "b"] ([] : FormulaMap) = .error (.missingFormula "b") ∧
    resolve_closure ["a", "b"] ([] : FormulaMap) ≠ .error (.missingFormula "a") := by
  have h : resolve_closure ["a", "b"] ([] : FormulaMap)
      = .error (.missingFormula "b") := by
    simp [resolve_closure, compute_closure, closureAux, List.lookup]
  refine ⟨by simp, rfl, h, ?_⟩
  rw [h]
  simp

/-- C10 witness: at roots `["a", "b"]` over the empty map the amended
statement is inhabited — the run fails naming the absent root `"b"`,
and that error indeed names an absent root. -/
theorem resolver_missing_root_spec_witness :
    (∃ r', r' ∈ ["a", "b"] ∧ List.lookup r' ([] : FormulaMap) = none ∧
      resolve_closure ["a", "b"] ([] : FormulaMap) = .error (.missingFormula r')) ∧
    (("b" : String) ∈ ["a", "b"] ∧ List.lookup ("b" : String) ([] : FormulaMap) = none) := by
  have h := resolver_missing_root_spec ["a", "b"] ([] : FormulaMap)
  refine ⟨h.1 ⟨"a", by simp, rfl⟩, h.2 "b" ?_⟩
  simp [resolve_closure, compute_closure, closureAux, List.lookup]

end ZeroBrew
